import Mathlib

/-!
A verification development for `list.hpp`.

`list.hpp` implements `List<T, Allocator>`: a doubly linked list whose nodes are
owned through `std::unique_ptr<Element, deleter>` handles (`first` owns the first
node, every node owns its `next_element`), with raw back references
(`prev_element`, `tail`) and an element counter `size`.

The embedding is shallow.  Memory is an arena of cells: a node address is an index
into `State.cells`; a cell holds `some e` while the node is live and `none` once it
has been destroyed and deallocated.  Allocation appends a cell, so addresses are
never reused.  Every operation is a function from a state to an `Outcome`:

* `ok a s`     normal return of `a` in state `s`;
* `thrown s`   a `std::logic_error` was thrown, `s` is the state at the throw;
* `fault f`    the execution has undefined behaviour (null or dangling access,
               an unbounded recursion of the deleter, or control that flows off
               the end of a function that has to return a value).

`size_t` arithmetic wraps modulo `2 ^ 64`.
-/

namespace LinkedList

/-! ## Data model -/

/-- Largest value of `size_t` (64 bit). -/
def SIZE_MAX : Nat := 18446744073709551615

/-- Ways in which an execution leaves the defined behaviour of C++. -/
inductive Fault where
  | null_deref
  | dangling
  | diverges
  | no_return
  deriving DecidableEq, Repr

/-- Result of running an operation from a state of type `σ`. -/
inductive Outcome (σ α : Type) where
  | ok (a : α) (s : σ)
  | thrown (s : σ)
  | fault (f : Fault)
  deriving DecidableEq, Repr

/-- The node type `struct Element`: `value`, the owning handle `next_element`
(its stored pointer) and the raw pointer `prev_element`; `none` is `nullptr`. -/
structure Element (T : Type) where
  value : T
  next_element : Option Nat
  prev_element : Option Nat
  deriving DecidableEq, Repr

/-- The memory together with the fields of one `List` object: `size`, the pointer
stored in the owning handle `first`, and the raw pointer `tail`. -/
structure State (T : Type) where
  cells : List (Option (Element T))
  size : Nat
  first : Option Nat
  tail : Option Nat
  deriving DecidableEq, Repr

/-- A `forward_iterator` is its field `it_ptr`; `none` is the end sentinel. -/
abbrev forward_iterator := Option Nat

/-- An operation on states: runs from a state and gives an outcome. -/
def Op (σ α : Type) := σ → Outcome σ α

/-- Sequencing: the second operation runs only after a normal return. -/
def Op.bind {σ α β : Type} (m : Op σ α) (f : α → Op σ β) : Op σ β := fun s =>
  match m s with
  | .ok a s1 => f a s1
  | .thrown s1 => .thrown s1
  | .fault e => .fault e

instance {σ : Type} : Monad (Op σ) where
  pure a := fun s => .ok a s
  bind := Op.bind

variable {T : Type}

/-! ## Memory primitives -/

/-- The statement `throw std::logic_error(...)`. -/
def throw_logic_error {α : Type} : Op (State T) α := fun s => .thrown s

/-- Read the current state. -/
def getState : Op (State T) (State T) := fun s => .ok s s

/-- Dereference of a node pointer (`p->...`): undefined on `nullptr` and on a node
that has been destroyed and deallocated. -/
def deref (p : Option Nat) : Op (State T) (Element T) := fun s =>
  match p with
  | none => .fault .null_deref
  | some a =>
    match s.cells[a]? with
    | some (some e) => .ok e s
    | _ => .fault .dangling

/-- Overwrite the node at an address; used only after `deref` of the same pointer
has found the node live. -/
def store (p : Option Nat) (e : Element T) : Op (State T) Unit := fun s =>
  match p with
  | none => .fault .null_deref
  | some a => .ok () { s with cells := s.cells.set a (some e) }

/-- The pair `allocator_.allocate(1)` and `construct(allocator_, ptr, value)`:
a fresh cell holding `Element(value)`, whose links are null.  Memory is unbounded:
the allocation does not fail. -/
def allocate_construct (value : T) : Op (State T) Nat := fun s =>
  .ok s.cells.length { s with cells := s.cells ++ [some ⟨value, none, none⟩] }

/-- The call `allocator_->deallocate(ptr, 1)`. -/
def deallocate (a : Nat) : Op (State T) Unit := fun s =>
  .ok () { s with cells := s.cells.set a none }

/-- The call `deleter::operator()(ptr)` with `fuel` bounding the recursion depth:
nothing for `nullptr`; otherwise `destroy` runs `~Element`, which destroys the
handle `next_element` and so releases the successor, and then the storage is
deallocated.  Releasing a node that is no longer live is a double free. -/
def release : Nat → Option Nat → Op (State T) Unit
  | _, none => pure ()
  | 0, some _ => fun _ => .fault .diverges
  | fuel + 1, some a => do
    let e ← deref (some a)
    release fuel e.next_element
    deallocate a

/-- The deleter as the handles call it.  A chain of distinct live nodes has at most
`cells.length` nodes, so this fuel is exhausted only by a cyclic chain.  A handle
receives a non-null pointer only together with `deleter{&allocator_}`, so the
allocator pointer of the deleter is non-null whenever there is a node to release;
the allocator itself is stateless and is not part of the state. -/
def deleter (p : Option Nat) : Op (State T) Unit := fun s =>
  release (s.cells.length + 1) p s

/-- Assignment to `p->prev_element`. -/
def set_prev (p : Option Nat) (q : Option Nat) : Op (State T) Unit := do
  let e ← deref p
  store p { e with prev_element := q }

/-- Move assignment to the handle `p->next_element` (`reset`): the new pointer is
stored first, then the deleter runs on the pointer held before. -/
def assign_next (p : Option Nat) (q : Option Nat) : Op (State T) Unit := do
  let e ← deref p
  store p { e with next_element := q }
  deleter e.next_element

/-- The expression `std::move(p->next_element)` used to initialise a local handle:
the pointer is taken out and the handle in the node is left null. -/
def move_next (p : Option Nat) : Op (State T) (Option Nat) := do
  let e ← deref p
  store p { e with next_element := none }
  pure e.next_element

/-- Move assignment to the handle `first`: store the new pointer, then run the
deleter on the old one. -/
def assign_first (q : Option Nat) : Op (State T) Unit := do
  let s ← getState
  (fun s1 => .ok () { s1 with first := q })
  deleter s.first

/-- Assignment to the raw pointer `tail`. -/
def set_tail (q : Option Nat) : Op (State T) Unit := fun s =>
  .ok () { s with tail := q }

/-- The statement `size++` on a `size_t`. -/
def inc_size : Op (State T) Unit := fun s =>
  .ok () { s with size := (s.size + 1) % (SIZE_MAX + 1) }

/-- The statement `size--` on a `size_t`. -/
def dec_size : Op (State T) Unit := fun s =>
  .ok () { s with size := (s.size + SIZE_MAX) % (SIZE_MAX + 1) }

/-! ## Iterators and queries -/

/-- Method `begin`. -/
def begin : Op (State T) forward_iterator := fun s => .ok s.first s

/-- Method `end`. -/
def end_ : Op (State T) forward_iterator := fun s => .ok none s

/-- Method `Length`. -/
def Length : Op (State T) Nat := fun s => .ok s.size s

/-- Method `Empty`. -/
def Empty : Op (State T) Bool := do
  let n ← Length
  pure (n == 0)

/-- Method `Element::Next` followed by reading `it_ptr` of the iterator it makes. -/
def Next (p : Option Nat) : Op (State T) forward_iterator := do
  let e ← deref p
  pure e.next_element

/-- Pre-increment of a forward iterator; the result is the new `it_ptr`. -/
def pre_incr (it : forward_iterator) : Op (State T) forward_iterator := do
  if it = none then throw_logic_error
  else Next it

/-- Post-increment: the pair of the returned copy `old` and the new `it_ptr`. -/
def post_incr (it : forward_iterator) : Op (State T) (forward_iterator × forward_iterator) := do
  let old := it
  let it1 ← pre_incr it
  pure (old, it1)

/-- Dereference `*it` of a forward iterator. -/
def star (it : forward_iterator) : Op (State T) T := do
  let e ← deref it
  pure e.value

/-- A loop `for (size_t i = 0; i < N; ++i) ++it`. -/
def advance : Nat → forward_iterator → Op (State T) forward_iterator
  | 0, it => pure it
  | n + 1, it => do
    let it1 ← pre_incr it
    advance n it1

/-- Method `Front`. -/
def Front : Op (State T) T := do
  let s ← getState
  if s.size = 0 then throw_logic_error
  else
    let e ← deref s.first
    pure e.value

/-- The loop of `Back`: `while (i.it_ptr->Next() != end()) i++`, with `fuel`
bounding the number of iterations. -/
def Back_loop : Nat → forward_iterator → Op (State T) forward_iterator
  | 0, _ => fun _ => .fault .diverges
  | fuel + 1, i => do
    let nx ← Next i
    let e ← end_
    if nx ≠ e then
      let r ← post_incr i
      Back_loop fuel r.2
    else pure i

/-- Method `Back`.  The walk visits distinct live nodes unless the chain is cyclic,
so `cells.length + 1` iterations are exhausted only by a walk that never ends. -/
def Back : Op (State T) T := do
  let s ← getState
  if s.size = 0 then throw_logic_error
  else
    let i ← begin
    let i1 ← Back_loop (s.cells.length + 1) i
    star i1

/-- The loop `for (size_t i = 0; i < index; i++) it++` of `operator[]`. -/
def advance_post : Nat → forward_iterator → Op (State T) forward_iterator
  | 0, it => pure it
  | n + 1, it => do
    let r ← post_incr it
    advance_post n r.2

/-- Method `operator[]`; the test `index < 0` is never true for a `size_t`. -/
def index (idx : Nat) : Op (State T) T := do
  let s ← getState
  if idx ≥ s.size then throw_logic_error
  else
    let it ← begin
    let it1 ← advance_post idx it
    star it1

/-! ## Mutation -/

/-- Method `PushBack` (lines 103-118). -/
def PushBack (value : T) : Op (State T) Unit := do
  let result ← allocate_construct value
  let s ← getState
  if s.size = 0 then
    -- first = unique_ptr(result, ...); tail = first.get(); size++; return;
    assign_first (some result)
    set_tail (some result)
    inc_size
  else
    -- tail->next_element = unique_ptr(result, ...);
    assign_next s.tail (some result)
    -- Element* temp = tail; tail = tail->next_element.get();
    let temp := s.tail
    let t ← deref s.tail
    set_tail t.next_element
    -- tail->prev_element = temp; size++;
    set_prev t.next_element temp
    inc_size

/-- Method `PushFront` (lines 120-136). -/
def PushFront (value : T) : Op (State T) Unit := do
  inc_size
  let result ← allocate_construct value
  -- unique_ptr tmp = std::move(first);
  let s ← getState
  let tmp := s.first
  (fun s1 => .ok () { s1 with first := none })
  -- first = unique_ptr(result, ...);
  assign_first (some result)
  -- first->next_element = std::move(tmp);
  let s1 ← getState
  assign_next s1.first tmp
  -- if (first->next_element != nullptr) first->next_element->prev_element = first.get();
  let f ← deref s1.first
  if f.next_element ≠ none then
    set_prev f.next_element s1.first
  -- if (size == 1) tail = first.get();
  if s1.size = 1 then
    set_tail s1.first
  -- if (size == 2) tail = first->next_element.get();
  if s1.size = 2 then
    let f2 ← deref s1.first
    set_tail f2.next_element

/-- Method `PopFront` (lines 138-150); there is no test for an empty list. -/
def PopFront : Op (State T) Unit := do
  let s ← getState
  if s.size = 1 then
    -- first = nullptr; tail = nullptr; size--; return;
    assign_first none
    set_tail none
    dec_size
  else
    -- unique_ptr tmp = std::move(first->next_element);
    let tmp ← move_next s.first
    -- first = std::move(tmp);
    assign_first tmp
    -- first->prev_element = nullptr; size--;
    set_prev tmp none
    dec_size

/-- Method `PopBack` (lines 152-164); there is no test for an empty list. -/
def PopBack : Op (State T) Unit := do
  let s ← getState
  -- if (tail->prev_element)
  let t ← deref s.tail
  if t.prev_element ≠ none then
    -- Element* tmp = tail->prev_element; tail->prev_element->next_element = nullptr; tail = tmp;
    let tmp := t.prev_element
    assign_next t.prev_element none
    set_tail tmp
  else
    -- first = nullptr; tail = nullptr;
    assign_first none
    set_tail none
  dec_size

/-- Method `EraseByIterator` (lines 192-213). -/
def EraseByIterator (d_it : forward_iterator) : Op (State T) Unit := do
  let e ← end_
  if d_it = e then throw_logic_error
  else
    let b ← begin
    if d_it = b then PopFront
    else
      let s ← getState
      if d_it = s.tail then PopBack
      else
        if d_it = none then throw_logic_error
        else
          -- auto temp = d_it.it_ptr->prev_element;
          let d ← deref d_it
          let temp := d.prev_element
          -- unique_ptr temp1 = std::move(d_it.it_ptr->next_element);
          let temp1 ← move_next d_it
          -- d_it.it_ptr->prev_element->next_element = std::move(temp1);
          let d1 ← deref d_it
          assign_next d1.prev_element temp1
          -- d_it.it_ptr = d_it.it_ptr->prev_element;
          let d2 ← deref d_it
          let d_it1 := d2.prev_element
          -- d_it.it_ptr->next_element->prev_element = temp; size--;
          let p ← deref d_it1
          set_prev p.next_element temp
          dec_size

/-- Method `EraseByNumber` (lines 217-224). -/
def EraseByNumber (N : Nat) : Op (State T) Unit := do
  let it ← begin
  let it1 ← advance N it
  EraseByIterator it1

/-- Method `InsertByIterator` (lines 226-247).  The node `tmp` is allocated before
the two delegations, which allocate their own node. -/
def InsertByIterator (ins_it : forward_iterator) (value : T) : Op (State T) Unit := do
  let tmp ← allocate_construct value
  let b ← begin
  if ins_it = b then PushFront value
  else
    if ins_it = none then PushBack value
    else
      -- tmp->prev_element = ins_it.it_ptr->prev_element;
      let i ← deref ins_it
      set_prev (some tmp) i.prev_element
      -- ins_it.it_ptr->prev_element = tmp;
      set_prev ins_it (some tmp)
      -- tmp->next_element = unique_ptr(ins_it.it_ptr, ...);
      assign_next (some tmp) ins_it
      -- tmp->prev_element->next_element = unique_ptr(tmp, ...); size++;
      let t ← deref (some tmp)
      assign_next t.prev_element (some tmp)
      inc_size

/-- Method `InsertByNumber` (lines 249-259). -/
def InsertByNumber (N : Nat) (value : T) : Op (State T) Unit := do
  let it ← begin
  let n ← Length
  let it1 ← if N ≥ n then end_ else advance N it
  InsertByIterator it1 value

/-- The default constructed list `List()` in a memory `cells`. -/
def init (cells : List (Option (Element T))) : State T :=
  { cells := cells, size := 0, first := none, tail := none }

/-! ## Client loops -/

/-- The client loop `for (it = begin(); it != end(); ++it) out.push_back(*it)`
from iterator `it` on, with `fuel` bounding the number of steps. -/
def traverse_loop : Nat → forward_iterator → Op (State T) (List T)
  | 0, _ => fun _ => .fault .diverges
  | fuel + 1, it => do
    let e ← end_
    if it = e then pure []
    else
      let v ← star it
      let it1 ← pre_incr it
      let rest ← traverse_loop fuel it1
      pure (v :: rest)

/-- Traversal from `begin()` to `end()`, collecting the values met.  A walk over
distinct live nodes makes at most `cells.length` steps. -/
def traverse : Op (State T) (List T) := do
  let s ← getState
  let b ← begin
  traverse_loop (s.cells.length + 1) b

/-- The calls `PushBack(v0); ...; PushBack(v(N-1))`. -/
def PushBack_all : List T → Op (State T) Unit
  | [] => pure ()
  | v :: vs => do
    PushBack v
    PushBack_all vs

/-- One call of a push or pop method. -/
inductive Cmd (T : Type) where
  | PushBack (v : T)
  | PushFront (v : T)
  | PopBack
  | PopFront
  deriving DecidableEq, Repr

/-- Run one call. -/
def Cmd.run : Cmd T → Op (State T) Unit
  | .PushBack v => LinkedList.PushBack v
  | .PushFront v => LinkedList.PushFront v
  | .PopBack => LinkedList.PopBack
  | .PopFront => LinkedList.PopFront

/-- Run a sequence of calls, first to last. -/
def run_all : List (Cmd T) → Op (State T) Unit
  | [] => pure ()
  | c :: cs => do
    c.run
    run_all cs

/-- Is the call a push. -/
def Cmd.isPush : Cmd T → Bool
  | .PushBack _ => true
  | .PushFront _ => true
  | _ => false

/-- Number of pushes in a sequence of calls. -/
def pushes (cs : List (Cmd T)) : Nat := (cs.filter Cmd.isPush).length

/-- Number of pops in a sequence of calls. -/
def pops (cs : List (Cmd T)) : Nat := (cs.filter (fun c => !c.isPush)).length

/-- No pop of the sequence is applied to an empty list, when the sequence starts
on a list of `n` elements: a push adds one element, a pop needs one and removes it. -/
def NoPopOnEmpty : Nat → List (Cmd T) → Bool
  | _, [] => true
  | n, c :: cs => if c.isPush then NoPopOnEmpty (n + 1) cs else decide (0 < n) && NoPopOnEmpty (n - 1) cs

/-! ## Well-formed lists

A state holds the nodes `ns` (pairs of address and value, first to last) when the
cells at these addresses are live and linked in this order in both directions,
`first` and `tail` are the first and the last of them and `size` is their number. -/

/-- Address of the first node of `ns`, or `nxt` when there is none. -/
def hd (ns : List (Nat × T)) (nxt : Option Nat) : Option Nat :=
  match ns with
  | [] => nxt
  | n :: _ => some n.1

/-- Address of the last node of `ns`, or `prev` when there is none. -/
def lst (prev : Option Nat) : List (Nat × T) → Option Nat
  | [] => prev
  | n :: rest => lst (some n.1) rest

/-- The nodes `ns` are live and linked first to last: the first has predecessor
`prev`, the last has successor `nxt`. -/
def Seg (cells : List (Option (Element T))) : Option Nat → List (Nat × T) → Option Nat → Prop
  | _, [], _ => True
  | prev, n :: rest, nxt =>
      cells[n.1]? = some (some ⟨n.2, hd rest nxt, prev⟩) ∧ Seg cells (some n.1) rest nxt

/-- The state `s` is a well-formed list made of the nodes `ns`. -/
def IsList (s : State T) (ns : List (Nat × T)) : Prop :=
  Seg s.cells none ns none ∧ (ns.map Prod.fst).Nodup ∧ s.first = hd ns none ∧
    s.tail = lst none ns ∧ s.size = ns.length ∧ ns.length ≤ SIZE_MAX

/-- The element values of a node sequence. -/
def values (ns : List (Nat × T)) : List T := ns.map Prod.snd

instance instDecidableSeg [DecidableEq T] (cells : List (Option (Element T))) :
    (prev : Option Nat) → (ns : List (Nat × T)) → (nxt : Option Nat) →
      Decidable (Seg cells prev ns nxt)
  | _, [], _ => isTrue trivial
  | _, n :: rest, nxt =>
    have := instDecidableSeg cells (some n.1) rest nxt
    inferInstanceAs (Decidable (_ ∧ _))

instance instDecidableIsList [DecidableEq T] (s : State T) (ns : List (Nat × T)) :
    Decidable (IsList s ns) :=
  inferInstanceAs (Decidable (_ ∧ _))

/-- The state reached by `PushBack(1); PushBack(2); PushBack(3)` from `List()` in an
empty memory. -/
def list123 : State Nat :=
  { cells := [some ⟨1, some 1, none⟩, some ⟨2, some 2, some 0⟩, some ⟨3, none, some 1⟩],
    size := 3, first := some 0, tail := some 2 }

/-- The state reached by `PushBack(1); PushBack(2)` from `List()` in an empty memory. -/
def list12 : State Nat :=
  { cells := [some ⟨1, some 1, none⟩, some ⟨2, none, some 0⟩],
    size := 2, first := some 0, tail := some 1 }

/-- The state in which `InsertByNumber(1, 9)` leaves `list12`: the node at address 1,
which held the value 2, has been released, and the new node at address 2 and `tail`
still point to it. -/
def list12_after_insert : State Nat :=
  { cells := [some ⟨1, some 2, none⟩, none, some ⟨9, some 1, some 0⟩],
    size := 3, first := some 0, tail := some 1 }

/-- The cells after the nodes at the addresses `as` have been deallocated, the last
of them first. -/
def freeAll (cells : List (Option (Element T))) : List Nat → List (Option (Element T))
  | [] => cells
  | a :: rest => (freeAll cells rest).set a none

/-! ## Assignment between two lists -/

/-- The fields `size`, `first` and `tail` of another `List` object that lives in the
same memory. -/
structure ListObj where
  size : Nat
  first : Option Nat
  tail : Option Nat
  deriving DecidableEq, Repr

/-- The object `o` seen as a state: its fields with the memory of `s`. -/
def State.withObj (s : State T) (o : ListObj) : State T :=
  { cells := s.cells, size := o.size, first := o.first, tail := o.tail }

/-- The two statements of `operator=` (lines 188-189), run on the destination
`*this`.  The argument `other` is `none` when it is the destination itself and
`some o` when it is another object with the fields `o`; the result is that other
object after the statements.  The move assignment `first = std::move(other.first)`
first takes the pointer out of `other.first`, which leaves that handle null, then
stores it in `first` and runs the deleter on the pointer `first` held at that
moment: the former chain of the destination, or null when `other.first` is `first`
itself.  `tail` is not assigned. -/
def operator_assign_stmts (other : Option ListObj) : Op (State T) (Option ListObj) := do
  let s ← getState
  match other with
  | none =>
    -- size = other.size; with `other` the destination itself
    (fun s1 => .ok () { s1 with size := s.size })
    -- first = std::move(other.first); the release of `other.first` empties `first`
    (fun s1 => .ok () { s1 with first := none })
    assign_first s.first
    pure none
  | some o =>
    -- size = other.size;
    (fun s1 => .ok () { s1 with size := o.size })
    -- first = std::move(other.first);
    assign_first o.first
    pure (some { o with first := none })

/-- Method `operator=` (lines 186-190).  After its two statements control reaches
the closing brace: the function is declared to return `List&` and has no `return`
statement, so flowing off its end is undefined behaviour, on every call. -/
def operator_assign (other : Option ListObj) : Op (State T) (Option ListObj) := do
  let _ ← operator_assign_stmts other
  (fun _ => .fault .no_return)

/-- Method `Back` as the design note of the spec allows it: through the stored
`tail` reference instead of a walk from `first`. -/
def Back_by_tail : Op (State T) T := do
  let s ← getState
  if s.size = 0 then throw_logic_error
  else
    let e ← deref s.tail
    pure e.value

/-! ## The invariants of the spec -/

/-- The address reached from the node at `a` by following `next_element` `k` times;
`none` when a node on the way is not live or has no successor. -/
def follow (cells : List (Option (Element T))) : Nat → Nat → Option Nat
  | 0, a => some a
  | k + 1, a =>
    match cells[a]? with
    | some (some e) =>
      match e.next_element with
      | some b => follow cells k b
      | none => none
    | _ => none

/-- The `next_element` of the node at `a`, when that node is live. -/
def next_at (cells : List (Option (Element T))) (a : Nat) : Option (Option Nat) :=
  match cells[a]? with
  | some (some e) => some e.next_element
  | _ => none

/-- The second List invariant of the spec: `tail` is reachable from `head` by
following `next` exactly `count - 1` times, and `tail.next == null`. -/
def TailReached (s : State T) : Prop :=
  match s.first, s.tail with
  | some a, some t => follow s.cells (s.size - 1) a = some t ∧ next_at s.cells t = some none
  | _, _ => False

/-- The List invariant of the spec (section 3): `count == 0 ⇔ head == null ⇔ tail ==
null`, and `count >= 1 ⇒ tail` is reachable from `head` by following `next` exactly
`count - 1` times, and `tail.next == null`. -/
def ListInv (s : State T) : Prop :=
  (s.size = 0 ↔ s.first = none) ∧ (s.first = none ↔ s.tail = none) ∧
    (1 ≤ s.size → TailReached s)

/-- The nodes met from `p` by following `next_element` until null, at most `fuel`
of them; `none` when a node that is not live is met or the fuel does not suffice. -/
def chain (cells : List (Option (Element T))) : Nat → Option Nat → Option (List (Nat × T))
  | _, none => some []
  | 0, some _ => none
  | fuel + 1, some a =>
    match cells[a]? with
    | some (some e) => (chain cells fuel e.next_element).map (fun ns => (a, e.value) :: ns)
    | _ => none

/-- The link invariant of the spec (section 3): the chain from `head` ends in null
after finitely many live nodes (no cycle; a chain of distinct nodes has at most
`cells.length` of them), for every element that has a successor `successor.prev` is
that element, the head is the only element whose `prev` is null, and the tail is
the only element whose `next` is null. -/
def LinkInv (s : State T) : Prop :=
  match chain s.cells s.cells.length s.first with
  | some ns => Seg s.cells none ns none ∧ s.tail = lst none ns
  | none => False

instance instDecidableTailReached (s : State T) : Decidable (TailReached s) := by
  unfold TailReached
  split <;> infer_instance

instance instDecidableListInv (s : State T) : Decidable (ListInv s) :=
  inferInstanceAs (Decidable (_ ∧ _))

instance instDecidableLinkInv [DecidableEq T] (s : State T) : Decidable (LinkInv s) := by
  unfold LinkInv
  split <;> infer_instance

/-- A memory holding two lists: the destination `7` (the node at address 0) and
the nodes of the source `1, 2` (addresses 1 and 2); the fields are those of the
destination. -/
def dst7 : State Nat :=
  { cells := [some ⟨7, none, none⟩, some ⟨1, some 2, none⟩, some ⟨2, none, some 1⟩],
    size := 1, first := some 0, tail := some 0 }

/-- The source list `1, 2` of `dst7`. -/
def src12 : ListObj := { size := 2, first := some 1, tail := some 2 }

/-- An empty destination in a memory that holds the nodes of the source `1, 2` at the
addresses 0 and 1. -/
def dst_empty : State Nat :=
  { cells := [some ⟨1, some 1, none⟩, some ⟨2, none, some 0⟩],
    size := 0, first := none, tail := none }

/-- The source list `1, 2` of `dst_empty`. -/
def src12_at0 : ListObj := { size := 2, first := some 0, tail := some 1 }

/-- The operation never throws a `std::logic_error`, from whatever state it runs. -/
def NoThrow {σ α : Type} (m : Op σ α) : Prop := ∀ s s1, m s ≠ .thrown s1

/-! ## Running operations -/

@[simp] theorem bind_apply {σ α β : Type} (m : Op σ α) (f : α → Op σ β) (s : σ) :
    (m >>= f) s = match m s with
      | .ok a s1 => f a s1
      | .thrown s1 => .thrown s1
      | .fault e => .fault e := rfl

@[simp] theorem pure_apply {σ α : Type} (a : α) (s : σ) : (pure a : Op σ α) s = .ok a s := rfl

theorem lst_append_singleton (prev : Option Nat) (xs : List (Nat × T)) (n : Nat × T) :
    lst prev (xs ++ [n]) = some n.1 := by
  induction xs generalizing prev with
  | nil => rfl
  | cons m r ih => exact ih (some m.1)

theorem hd_append (xs ys : List (Nat × T)) (nxt : Option Nat) :
    hd (xs ++ ys) nxt = hd xs (hd ys nxt) := by
  cases xs <;> rfl

theorem hd_mem {xs : List (Nat × T)} {a b : Nat} (h : hd xs (some a) = some b) :
    b = a ∨ b ∈ xs.map Prod.fst := by
  cases xs with
  | nil => left; injection h with h1; exact h1.symm
  | cons x rest => right; injection h with h1; simp [← h1]

theorem lst_mem {xs : List (Nat × T)} {a b : Nat} (h : lst (some a) xs = some b) :
    b = a ∨ b ∈ xs.map Prod.fst := by
  induction xs generalizing a with
  | nil => left; injection h with h1; exact h1.symm
  | cons x rest ih =>
    right
    rcases ih (a := x.1) h with e | hm
    · simp [e]
    · exact List.mem_cons_of_mem _ hm

theorem lst_append (prev : Option Nat) (xs ys : List (Nat × T)) :
    lst prev (xs ++ ys) = lst (lst prev xs) ys := by
  induction xs generalizing prev with
  | nil => rfl
  | cons x rest ih => exact ih (some x.1)

theorem Seg_frame {cs d : List (Option (Element T))} {prev nxt : Option Nat} {ns : List (Nat × T)}
    (h : Seg cs prev ns nxt) (hf : ∀ a ∈ ns.map Prod.fst, d[a]? = cs[a]? ) : Seg d prev ns nxt := by
  induction ns generalizing prev with
  | nil => trivial
  | cons n rest ih =>
    obtain ⟨h1, h2⟩ := h
    refine ⟨?_, ih h2 ?_⟩
    · rw [hf n.1 (by simp)]; exact h1
    · intro a ha
      exact hf a (List.mem_cons_of_mem _ ha)

theorem Seg_append {cs : List (Option (Element T))} {prev nxt : Option Nat} {xs ys : List (Nat × T)} :
    Seg cs prev (xs ++ ys) nxt ↔ Seg cs prev xs (hd ys nxt) ∧ Seg cs (lst prev xs) ys nxt := by
  induction xs generalizing prev with
  | nil => simp [Seg, lst]
  | cons n rest ih =>
    show (cs[n.1]? = some (some ⟨n.2, hd (rest ++ ys) nxt, prev⟩) ∧
        Seg cs (some n.1) (rest ++ ys) nxt) ↔
      ((cs[n.1]? = some (some ⟨n.2, hd rest (hd ys nxt), prev⟩) ∧
        Seg cs (some n.1) rest (hd ys nxt)) ∧ Seg cs (lst (some n.1) rest) ys nxt)
    rw [ih, hd_append, and_assoc]

theorem Seg_lt {cs : List (Option (Element T))} {prev nxt : Option Nat} {ns : List (Nat × T)}
    (h : Seg cs prev ns nxt) {a : Nat} (ha : a ∈ ns.map Prod.fst) : a < cs.length := by
  induction ns generalizing prev with
  | nil => simp at ha
  | cons n rest ih =>
    obtain ⟨h1, h2⟩ := h
    simp only [List.map_cons, List.mem_cons] at ha
    rcases ha with rfl | ha
    · by_contra hc
      rw [List.getElem?_eq_none (by omega)] at h1
      exact absurd h1 (by simp)
    · exact ih h2 ha

theorem Seg_set {cs : List (Option (Element T))} {prev nxt : Option Nat} {ns : List (Nat × T)}
    (h : Seg cs prev ns nxt) {a : Nat} (x : Option (Element T)) (ha : a ∉ ns.map Prod.fst) :
    Seg (cs.set a x) prev ns nxt := by
  refine Seg_frame h ?_
  intro b hb
  exact List.getElem?_set_ne (fun e => ha (by rw [e]; exact hb))

theorem Seg_push {cs : List (Option (Element T))} {prev nxt : Option Nat} {ns : List (Nat × T)}
    (h : Seg cs prev ns nxt) (l : List (Option (Element T))) : Seg (cs ++ l) prev ns nxt := by
  refine Seg_frame h ?_
  intro b hb
  exact List.getElem?_append_left (Seg_lt h hb)

theorem Seg_live {cs : List (Option (Element T))} {prev nxt : Option Nat} {ns : List (Nat × T)}
    (h : Seg cs prev ns nxt) {a : Nat} (ha : a ∈ ns.map Prod.fst) : ∃ e, cs[a]? = some (some e) := by
  induction ns generalizing prev with
  | nil => simp at ha
  | cons n rest ih =>
    obtain ⟨h1, h2⟩ := h
    simp only [List.map_cons, List.mem_cons] at ha
    rcases ha with rfl | ha
    · exact ⟨_, h1⟩
    · exact ih h2 ha

theorem inc_mod {n : Nat} (h : n < SIZE_MAX) : (n + 1) % (SIZE_MAX + 1) = n + 1 :=
  Nat.mod_eq_of_lt (by omega)

theorem dec_mod {n : Nat} (h : n + 1 ≤ SIZE_MAX) : (n + 1 + SIZE_MAX) % (SIZE_MAX + 1) = n := by
  rw [show n + 1 + SIZE_MAX = n + (SIZE_MAX + 1) by omega, Nat.add_mod_right]
  exact Nat.mod_eq_of_lt (by omega)

theorem cell_lt {cs : List (Option (Element T))} {a : Nat} {x : Option (Element T)}
    (h : cs[a]? = some x) : a < cs.length := by
  by_contra hc
  rw [List.getElem?_eq_none (by omega)] at h
  exact absurd h (by simp)

/-- PushBack on a represented list. -/
theorem PushBack_spec (s : State T) (ns : List (Nat × T)) (v : T) (h : IsList s ns)
    (hb : ns.length < SIZE_MAX) :
    ∃ s1, PushBack v s = .ok () s1 ∧ IsList s1 (ns ++ [(s.cells.length, v)]) ∧
      s1.cells.length = s.cells.length + 1 := by
  obtain ⟨hseg, hnd, hf, ht, hsz, _⟩ := h
  have hfresh : s.cells.length ∉ ns.map Prod.fst := fun hm => Nat.lt_irrefl _ (Seg_lt hseg hm)
  rcases List.eq_nil_or_concat ns with rfl | ⟨xs, n, rfl⟩
  · simp [hd, lst] at hf ht hsz
    have h1 : (0 + 1) % (SIZE_MAX + 1) = 0 + 1 := inc_mod (by simpa using hb)
    rw [Nat.zero_add] at h1
    simp [PushBack, allocate_construct, getState, hsz, assign_first, set_tail, inc_size, deleter, release, hf]
    simp [IsList, Seg, hd, lst, h1]
    omega
  · simp only [List.concat_eq_append] at *
    have hseg0 := hseg
    rw [Seg_append] at hseg
    obtain ⟨hxs, hn, -⟩ := hseg
    simp [hd] at hn
    simp [lst_append_singleton] at ht
    have hsz0 : s.size ≠ 0 := by simp [hsz]
    have hlt : n.1 < s.cells.length := cell_lt hn
    have hlt1 : n.1 < s.cells.length + 1 := by omega
    have hne : ¬ n.1 = s.cells.length := by omega
    have hne1 : ¬ s.cells.length = n.1 := by omega
    simp [PushBack, allocate_construct, getState, hsz0, ht, assign_next, deref, store, set_tail, inc_size, deleter, release, set_prev,
      List.getElem?_append_left hlt, hn, List.getElem?_set, hlt1, hne, hne1]
    have hnx : n.1 ∉ xs.map Prod.fst := by
      intro hm
      rw [List.map_append, List.nodup_append] at hnd
      exact hnd.2.2 hm (by simp)
    refine ⟨?_, ?_, ?_, ?_, ?_, ?_⟩
    · show Seg _ none (xs ++ [n, (s.cells.length, v)]) none
      rw [Seg_append]
      refine ⟨Seg_set (Seg_set (Seg_push hxs _) _ hnx) _ (fun hm => hfresh (by simp at hm ⊢; exact Or.inl hm)), ?_⟩
      simp [Seg, hd, List.getElem?_set, hlt1, hne, hne1]
    · have : List.map Prod.fst (xs ++ [n, (s.cells.length, v)])
          = List.map Prod.fst (xs ++ [n]) ++ [s.cells.length] := by simp
      rw [this]
      exact List.Nodup.append hnd (by simp) (by simpa using hfresh)
    · show s.first = _
      rw [hf, hd_append, hd_append]; rfl
    · show _ = lst none (xs ++ [n, (s.cells.length, v)])
      have : xs ++ [n, (s.cells.length, v)] = (xs ++ [n]) ++ [(s.cells.length, v)] := by simp
      rw [this, lst_append_singleton]
    · show (s.size + 1) % (SIZE_MAX + 1) = _
      rw [hsz, inc_mod hb]; simp
    · simp at hb ⊢; omega


/-! ## Iterators and queries on well-formed lists -/

theorem deref_cell {s : State T} {a : Nat} {e : Element T} (h : s.cells[a]? = some (some e)) :
    deref (some a) s = .ok e s := by
  simp [deref, h]

theorem nodes_le_cells {cs : List (Option (Element T))} {prev nxt : Option Nat}
    {ns : List (Nat × T)} (h : Seg cs prev ns nxt) (hnd : (ns.map Prod.fst).Nodup) :
    ns.length ≤ cs.length := by
  have hsub : ns.map Prod.fst ⊆ List.range cs.length := by
    intro a ha
    exact List.mem_range.2 (Seg_lt h ha)
  have := (List.subperm_of_subset hnd hsub).length_le
  simpa using this

theorem IsList_length_le {s : State T} {ns : List (Nat × T)} (h : IsList s ns) :
    ns.length ≤ s.cells.length :=
  nodes_le_cells h.1 h.2.1

theorem pre_incr_cell {s : State T} {a : Nat} {e : Element T} (h : s.cells[a]? = some (some e)) :
    pre_incr (some a) s = .ok e.next_element s := by
  simp [pre_incr, Next, deref, h]

theorem advance_Seg {s : State T} {prev nxt : Option Nat} {ns : List (Nat × T)}
    (h : Seg s.cells prev ns nxt) (k : Nat) (hk : k ≤ ns.length) :
    advance k (hd ns nxt) s = .ok (hd (ns.drop k) nxt) s := by
  induction k generalizing ns prev with
  | zero => rfl
  | succ k ih =>
    cases ns with
    | nil => simp at hk
    | cons n rest =>
      obtain ⟨h1, h2⟩ := h
      show (pre_incr (some n.1) >>= fun it1 => advance k it1) s = _
      rw [bind_apply, pre_incr_cell h1]
      exact ih h2 (by simpa using hk)

theorem advance_past {s : State T} {prev : Option Nat} {ns : List (Nat × T)}
    (h : Seg s.cells prev ns none) (k : Nat) (hk : ns.length < k) :
    advance k (hd ns none) s = .thrown s := by
  induction k generalizing ns prev with
  | zero => simp at hk
  | succ k ih =>
    cases ns with
    | nil => rfl
    | cons n rest =>
      obtain ⟨h1, h2⟩ := h
      show (pre_incr (some n.1) >>= fun it1 => advance k it1) s = _
      rw [bind_apply, pre_incr_cell h1]
      exact ih h2 (by simpa using hk)

theorem advance_post_Seg {s : State T} {prev nxt : Option Nat} {ns : List (Nat × T)}
    (h : Seg s.cells prev ns nxt) (k : Nat) (hk : k ≤ ns.length) :
    advance_post k (hd ns nxt) s = .ok (hd (ns.drop k) nxt) s := by
  induction k generalizing ns prev with
  | zero => rfl
  | succ k ih =>
    cases ns with
    | nil => simp at hk
    | cons n rest =>
      obtain ⟨h1, h2⟩ := h
      show (post_incr (some n.1) >>= fun r => advance_post k r.2) s = _
      simp only [bind_apply, post_incr, pre_incr_cell h1, pure_apply]
      exact ih h2 (by simpa using hk)

theorem Seg_drop {cs : List (Option (Element T))} {prev nxt : Option Nat} {ns : List (Nat × T)}
    (h : Seg cs prev ns nxt) (k : Nat) : Seg cs (lst prev (ns.take k)) (ns.drop k) nxt := by
  have := h
  rw [← List.take_append_drop k ns, Seg_append] at this
  exact this.2

theorem Seg_getElem {cs : List (Option (Element T))} {prev nxt : Option Nat} {ns : List (Nat × T)}
    (h : Seg cs prev ns nxt) (i : Nat) (hi : i < ns.length) :
    ∃ e, cs[(ns[i]).1]? = some (some e) ∧ e.value = (ns[i]).2 := by
  have hd := Seg_drop h i
  rw [List.drop_eq_getElem_cons hi] at hd
  exact ⟨_, hd.1, rfl⟩

theorem Seg_last {cs : List (Option (Element T))} {prev nxt : Option Nat} {xs : List (Nat × T)}
    {n : Nat × T} (h : Seg cs prev (xs ++ [n]) nxt) :
    cs[n.1]? = some (some ⟨n.2, nxt, lst prev xs⟩) := by
  rw [Seg_append] at h
  exact h.2.1

theorem star_cell {s : State T} {a : Nat} {e : Element T} (h : s.cells[a]? = some (some e)) :
    star (some a) s = .ok e.value s := by
  simp [star, deref, h]

/-- Method `operator[]` on a well-formed list: in range it returns the value of the
node at that position and leaves the state as it is. -/
theorem index_spec {s : State T} {ns : List (Nat × T)} (h : IsList s ns) (i : Nat)
    (hi : i < ns.length) : index i s = .ok (ns[i]).2 s := by
  obtain ⟨hseg, -, hf, -, hsz, -⟩ := h
  have hlt : ¬ i ≥ s.size := by omega
  obtain ⟨e, he, hv⟩ := Seg_getElem hseg i hi
  simp only [index, bind_apply, getState, begin, hlt, if_false, hf]
  rw [advance_post_Seg hseg i (by omega), List.drop_eq_getElem_cons hi]
  simp only [hd, star_cell he, hv]

theorem index_out_of_range (s : State T) (i : Nat) (hi : s.size ≤ i) : index i s = .thrown s := by
  simp [index, getState, hi, throw_logic_error]

theorem Front_spec {s : State T} {n : Nat × T} {rest : List (Nat × T)}
    (h : IsList s (n :: rest)) : Front s = .ok n.2 s := by
  obtain ⟨hseg, -, hf, -, hsz, -⟩ := h
  have h0 : s.size ≠ 0 := by simp [hsz]
  simp [Front, getState, h0, hf, hd, deref, hseg.1]

theorem Back_loop_Seg {s : State T} {prev : Option Nat} {n : Nat × T} {rest : List (Nat × T)}
    (h : Seg s.cells prev (n :: rest) none) (fuel : Nat) (hfuel : rest.length < fuel) :
    Back_loop fuel (some n.1) s = .ok (lst (some n.1) rest) s := by
  induction rest generalizing n prev fuel with
  | nil =>
    cases fuel with
    | zero => simp at hfuel
    | succ fuel =>
      simp [Back_loop, Next, deref, h.1, hd, end_, lst]
  | cons m rest ih =>
    cases fuel with
    | zero => simp at hfuel
    | succ fuel =>
      have := ih h.2 fuel (by simpa using hfuel)
      simp [Back_loop, Next, deref, h.1, hd, end_, lst, post_incr, pre_incr, this]

theorem Back_spec {s : State T} {xs : List (Nat × T)} {n : Nat × T}
    (h : IsList s (xs ++ [n])) : Back s = .ok n.2 s := by
  have hlen := IsList_length_le h
  obtain ⟨hseg, -, hf, -, hsz, -⟩ := h
  have h0 : s.size ≠ 0 := by simp [hsz]
  have hl := Seg_last hseg
  cases hx : xs ++ [n] with
  | nil => simp at hx
  | cons m rest =>
    rw [hx] at hseg hf hlen
    have hb := Back_loop_Seg hseg (s.cells.length + 1) (by simp at hlen; omega)
    have hlast : lst (some m.1) rest = some n.1 := by
      have : lst none (xs ++ [n]) = some n.1 := lst_append_singleton _ _ _
      rw [hx] at this
      exact this
    simp [Back, getState, h0, begin, hf, hd, hb, hlast, star_cell hl]

theorem traverse_loop_Seg {s : State T} {prev : Option Nat} {ns : List (Nat × T)}
    (h : Seg s.cells prev ns none) (fuel : Nat) (hfuel : ns.length < fuel) :
    traverse_loop fuel (hd ns none) s = .ok (values ns) s := by
  induction ns generalizing prev fuel with
  | nil =>
    cases fuel with
    | zero => simp at hfuel
    | succ fuel => simp [traverse_loop, hd, end_, values]
  | cons n rest ih =>
    cases fuel with
    | zero => simp at hfuel
    | succ fuel =>
      have := ih h.2 fuel (by simpa using hfuel)
      simp [traverse_loop, hd, end_, values, star_cell h.1, pre_incr_cell h.1] at this ⊢
      simp [this]

theorem traverse_spec {s : State T} {ns : List (Nat × T)} (h : IsList s ns) :
    traverse s = .ok (values ns) s := by
  have hlen := IsList_length_le h
  simp [traverse, getState, begin, h.2.2.1, traverse_loop_Seg h.1 (s.cells.length + 1) (by omega)]

/-! ## Pushes and pops on well-formed lists -/

theorem nodup_cons_fresh {ns : List (Nat × T)} {a : Nat} {v : T}
    (hnd : (ns.map Prod.fst).Nodup) (ha : a ∉ ns.map Prod.fst) :
    (((a, v) :: ns).map Prod.fst).Nodup := by
  simpa using ⟨by simpa using ha, hnd⟩

/-- PushFront on a well-formed list. -/
theorem PushFront_spec (s : State T) (ns : List (Nat × T)) (v : T) (h : IsList s ns)
    (hb : ns.length < SIZE_MAX) :
    ∃ s1, PushFront v s = .ok () s1 ∧ IsList s1 ((s.cells.length, v) :: ns) ∧
      s1.cells.length = s.cells.length + 1 := by
  obtain ⟨hseg, hnd, hf, ht, hsz, _⟩ := h
  have hfresh : s.cells.length ∉ ns.map Prod.fst := fun hm => Nat.lt_irrefl _ (Seg_lt hseg hm)
  have hinc : (s.size + 1) % (SIZE_MAX + 1) = ns.length + 1 := by rw [hsz, inc_mod hb]
  cases ns with
  | nil =>
    simp only [hd, lst, List.length_nil, Nat.zero_add] at hf ht hinc
    simp [PushFront, allocate_construct, getState, assign_first, assign_next, set_tail, inc_size,
      deleter, release, hf, deref, store, hinc]
    simp [IsList, Seg, hd, lst]
    omega
  | cons m rest =>
    obtain ⟨hm, hrest⟩ := hseg
    simp only [hd] at hf
    have hlt : m.1 < s.cells.length := cell_lt hm
    have hlt1 : m.1 < s.cells.length + 1 := by omega
    have hne : ¬ m.1 = s.cells.length := by omega
    have hne1 : ¬ s.cells.length = m.1 := by omega
    simp [PushFront, allocate_construct, getState, assign_first, assign_next, set_tail, inc_size,
      deleter, release, hf, deref, store, hinc, set_prev, List.getElem?_set, hlt1, hne, hne1,
      List.getElem?_append_left hlt, hm]
    have hmr : m.1 ∉ rest.map Prod.fst := by
      simp only [List.map_cons, List.nodup_cons] at hnd
      exact hnd.1
    have hfr : s.cells.length ∉ rest.map Prod.fst := fun hx => hfresh (List.mem_cons_of_mem _ hx)
    have hseg1 : Seg ((s.cells ++ [some (Element.mk v (some m.1) none)]).set m.1
        (some (Element.mk m.2 (hd rest none) (some s.cells.length)))) none
        ((s.cells.length, v) :: m :: rest) none := by
      refine ⟨?_, ?_, Seg_set (Seg_push hrest _) _ hmr⟩
      · simp [List.getElem?_set, hne, hd]
      · simp [List.getElem?_set, hlt1]
    have hnd1 : (((s.cells.length, v) :: m :: rest).map Prod.fst).Nodup :=
      nodup_cons_fresh hnd hfresh
    have hsz1 : rest.length + 1 + 1 ≤ SIZE_MAX := by simp at hb; omega
    cases rest with
    | nil =>
      simp [deref, List.getElem?_set, hne, set_tail]
      exact ⟨hseg1, hnd1, rfl, rfl, rfl, by simpa using hsz1⟩
    | cons m2 rest2 =>
      simp
      exact ⟨hseg1, hnd1, rfl, ht, rfl, by simpa using hsz1⟩

/-- PopFront on a well-formed non-empty list. -/
theorem PopFront_spec (s : State T) (n : Nat × T) (rest : List (Nat × T))
    (h : IsList s (n :: rest)) :
    ∃ s1, PopFront s = .ok () s1 ∧ IsList s1 rest ∧ s1.cells.length = s.cells.length := by
  obtain ⟨hseg, hnd, hf, ht, hsz, hmax⟩ := h
  obtain ⟨hn, hrest⟩ := hseg
  simp only [hd] at hf
  have hdec : (s.size + SIZE_MAX) % (SIZE_MAX + 1) = rest.length := by
    rw [hsz]; exact dec_mod (by simpa using hmax)
  have hlt : n.1 < s.cells.length := cell_lt hn
  have hnr : n.1 ∉ rest.map Prod.fst := by
    simp only [List.map_cons, List.nodup_cons] at hnd
    exact hnd.1
  have hndr : (rest.map Prod.fst).Nodup := by
    simp only [List.map_cons, List.nodup_cons] at hnd
    exact hnd.2
  have hmaxr : rest.length ≤ SIZE_MAX := by simp at hmax; omega
  cases rest with
  | nil =>
    have h1 : s.size = 1 := by simpa using hsz
    simp [PopFront, getState, h1, assign_first, deleter, release, hf, deref, hn, hd, deallocate,
      set_tail, dec_size]
    simp [IsList, Seg, hd, lst, SIZE_MAX]
  | cons m rest2 =>
    have h1 : ¬ s.size = 1 := by simp [hsz]
    obtain ⟨hm, hrest2⟩ := hrest
    simp only [hd] at hn
    have hmlt : m.1 < s.cells.length := cell_lt hm
    have hnm : ¬ n.1 = m.1 := by
      intro e; apply hnr; simp [e]
    have hmr : m.1 ∉ rest2.map Prod.fst := by
      simp only [List.map_cons, List.nodup_cons] at hndr
      exact hndr.1
    have hnr2 : n.1 ∉ rest2.map Prod.fst := fun hx => hnr (List.mem_cons_of_mem _ hx)
    simp [PopFront, getState, h1, assign_first, deleter, release, hf, deref, hn, deallocate,
      set_tail, dec_size, move_next, store, set_prev, List.getElem?_set, hlt, hnm, hm, hdec]
    refine ⟨⟨?_, Seg_set (Seg_set hrest2 _ hnr2) _ hmr⟩, hndr, rfl, ?_, by simpa using hmaxr⟩
    · simp [List.getElem?_set, hmlt]
    · rw [ht]; rfl

/-- PopBack on a well-formed non-empty list. -/
theorem PopBack_spec (s : State T) (xs : List (Nat × T)) (n : Nat × T)
    (h : IsList s (xs ++ [n])) :
    ∃ s1, PopBack s = .ok () s1 ∧ IsList s1 xs ∧ s1.cells.length = s.cells.length := by
  obtain ⟨hseg, hnd, hf, ht, hsz, hmax⟩ := h
  have hn := Seg_last hseg
  rw [lst_append_singleton] at ht
  have hdec : (s.size + SIZE_MAX) % (SIZE_MAX + 1) = xs.length := by
    rw [hsz, List.length_append]; exact dec_mod (by simpa using hmax)
  have hlt : n.1 < s.cells.length := cell_lt hn
  rw [List.map_append, List.nodup_append] at hnd
  obtain ⟨hndx, -, hdisj⟩ := hnd
  have hnx : n.1 ∉ xs.map Prod.fst := fun hx => hdisj hx (by simp)
  have hmaxx : xs.length ≤ SIZE_MAX := by simp at hmax; omega
  rcases List.eq_nil_or_concat xs with rfl | ⟨ys, p, rfl⟩
  · simp only [List.nil_append, hd] at hf
    simp [PopBack, getState, ht, deref, hn, lst, assign_first, deleter, release, hf, deallocate,
      set_tail, dec_size, hdec]
    simp [IsList, Seg, hd, lst]
  · simp only [List.concat_eq_append] at *
    rw [Seg_append] at hseg
    obtain ⟨hys, -⟩ := hseg
    have hp := Seg_last hys
    simp only [hd] at hp
    rw [Seg_append] at hys
    obtain ⟨hys1, -⟩ := hys
    have hplt : p.1 < s.cells.length := cell_lt hp
    have hpn : ¬ p.1 = n.1 := by
      intro e; apply hnx; simp [← e]
    have hndx0 := hndx
    rw [List.map_append, List.nodup_append] at hndx
    have hpy : p.1 ∉ ys.map Prod.fst := fun hx => hndx.2.2 hx (by simp)
    have hny : n.1 ∉ ys.map Prod.fst := fun hx => hnx (by simp at hx ⊢; exact Or.inl hx)
    simp [PopBack, getState, ht, deref, hn, lst_append_singleton, assign_next, deleter, release, hp,
      deallocate, set_tail, dec_size, store, List.getElem?_set, hplt, hpn, hdec]
    refine ⟨?_, hndx0, ?_, (lst_append_singleton _ _ _).symm, by simp, hmaxx⟩
    · show Seg _ none (ys ++ [p]) none
      rw [Seg_append]
      refine ⟨Seg_set (Seg_set hys1 _ hpy) _ hny, ?_, trivial⟩
      have hnp : ¬ n.1 = p.1 := fun e => hpn e.symm
      simp [List.getElem?_set, hnp, hplt, hd]
    · show s.first = _
      simp only [hf, hd_append]; rfl

/-! ## Operations that never throw -/

theorem NoThrow_bind {σ α β : Type} {m : Op σ α} {f : α → Op σ β} (hm : NoThrow m)
    (hf : ∀ a, NoThrow (f a)) : NoThrow (m >>= f) := by
  intro s s1
  rw [bind_apply]
  cases h : m s with
  | ok a s2 => exact hf a s2 s1
  | thrown s2 => exact absurd h (hm s s2)
  | fault e => simp

theorem NoThrow_pure {σ α : Type} (a : α) : NoThrow (pure a : Op σ α) := by
  intro s s1; simp

theorem NoThrow_ite {σ α : Type} {c : Prop} [Decidable c] {m1 m2 : Op σ α} (h1 : NoThrow m1)
    (h2 : NoThrow m2) : NoThrow (if c then m1 else m2) := by
  split
  · exact h1
  · exact h2

theorem NoThrow_getState : NoThrow (getState : Op (State T) (State T)) := by
  intro s s1; simp [getState]

theorem NoThrow_deref (p : Option Nat) : NoThrow (deref p : Op (State T) (Element T)) := by
  intro s s1
  unfold deref
  split
  · simp
  · split <;> simp

theorem NoThrow_store (p : Option Nat) (e : Element T) : NoThrow (store p e) := by
  intro s s1
  unfold store
  split <;> simp

theorem NoThrow_deallocate (a : Nat) : NoThrow (deallocate a : Op (State T) Unit) := by
  intro s s1; simp [deallocate]

theorem NoThrow_release (fuel : Nat) (p : Option Nat) :
    NoThrow (release fuel p : Op (State T) Unit) := by
  induction fuel generalizing p with
  | zero =>
    cases p with
    | none => exact NoThrow_pure _
    | some a => intro s s1; simp [release]
  | succ fuel ih =>
    cases p with
    | none => exact NoThrow_pure _
    | some a =>
      exact NoThrow_bind (NoThrow_deref _) fun e =>
        NoThrow_bind (ih _) fun _ => NoThrow_deallocate a

theorem NoThrow_deleter (p : Option Nat) : NoThrow (deleter p : Op (State T) Unit) := by
  intro s s1
  exact NoThrow_release _ p s s1

theorem NoThrow_set_prev (p q : Option Nat) : NoThrow (set_prev p q : Op (State T) Unit) :=
  NoThrow_bind (NoThrow_deref _) fun _ => NoThrow_store _ _

theorem NoThrow_assign_next (p q : Option Nat) : NoThrow (assign_next p q : Op (State T) Unit) :=
  NoThrow_bind (NoThrow_deref _) fun _ => NoThrow_bind (NoThrow_store _ _) fun _ => NoThrow_deleter _

theorem NoThrow_move_next (p : Option Nat) : NoThrow (move_next p : Op (State T) (Option Nat)) :=
  NoThrow_bind (NoThrow_deref _) fun _ => NoThrow_bind (NoThrow_store _ _) fun _ => NoThrow_pure _

theorem NoThrow_assign_first (q : Option Nat) : NoThrow (assign_first q : Op (State T) Unit) :=
  NoThrow_bind NoThrow_getState fun _ =>
    NoThrow_bind (fun s s1 => by simp) fun _ => NoThrow_deleter _

theorem NoThrow_set_tail (q : Option Nat) : NoThrow (set_tail q : Op (State T) Unit) := by
  intro s s1; simp [set_tail]

theorem NoThrow_inc_size : NoThrow (inc_size : Op (State T) Unit) := by
  intro s s1; simp [inc_size]

theorem NoThrow_dec_size : NoThrow (dec_size : Op (State T) Unit) := by
  intro s s1; simp [dec_size]

theorem NoThrow_PopFront : NoThrow (PopFront : Op (State T) Unit) :=
  NoThrow_bind NoThrow_getState fun _ =>
    NoThrow_ite
      (NoThrow_bind (NoThrow_assign_first _) fun _ =>
        NoThrow_bind (NoThrow_set_tail _) fun _ => NoThrow_dec_size)
      (NoThrow_bind (NoThrow_move_next _) fun _ =>
        NoThrow_bind (NoThrow_assign_first _) fun _ =>
          NoThrow_bind (NoThrow_set_prev _ _) fun _ => NoThrow_dec_size)

theorem NoThrow_PopBack : NoThrow (PopBack : Op (State T) Unit) :=
  NoThrow_bind NoThrow_getState fun _ =>
    NoThrow_bind (NoThrow_deref _) fun _ =>
      NoThrow_ite
        (NoThrow_bind (NoThrow_assign_next _ _) fun _ =>
          NoThrow_bind (NoThrow_set_tail _) fun _ => NoThrow_dec_size)
        (NoThrow_bind (NoThrow_assign_first _) fun _ =>
          NoThrow_bind (NoThrow_set_tail _) fun _ => NoThrow_dec_size)

/-- Method `EraseByIterator` throws only on the end sentinel. -/
theorem NoThrow_EraseByIterator (a : Nat) :
    NoThrow (EraseByIterator (some a) : Op (State T) Unit) := by
  intro s s1
  simp only [EraseByIterator, bind_apply, end_, begin, reduceCtorEq, if_false]
  by_cases h1 : some a = s.first
  · rw [if_pos h1]; exact NoThrow_PopFront s s1
  · rw [if_neg h1]
    simp only [bind_apply, getState]
    by_cases h2 : some a = s.tail
    · rw [if_pos h2]; exact NoThrow_PopBack s s1
    · rw [if_neg h2]
      exact (NoThrow_bind (NoThrow_deref _) fun _ =>
        NoThrow_bind (NoThrow_move_next _) fun _ =>
          NoThrow_bind (NoThrow_deref _) fun _ =>
            NoThrow_bind (NoThrow_assign_next _ _) fun _ =>
              NoThrow_bind (NoThrow_deref _) fun _ =>
                NoThrow_bind (NoThrow_deref _) fun _ =>
                  NoThrow_bind (NoThrow_set_prev _ _) fun _ => NoThrow_dec_size) s s1

/-! ## Sequences of calls -/

theorem IsList_init (cells : List (Option (Element T))) : IsList (init cells) [] :=
  ⟨trivial, List.nodup_nil, rfl, rfl, rfl, Nat.zero_le _⟩

theorem PushBack_all_spec (vs : List T) (s : State T) (ns : List (Nat × T)) (h : IsList s ns)
    (hb : ns.length + vs.length ≤ SIZE_MAX) :
    ∃ s1 ns1, PushBack_all vs s = .ok () s1 ∧ IsList s1 (ns ++ ns1) ∧ values ns1 = vs := by
  induction vs generalizing s ns with
  | nil => exact ⟨s, [], rfl, by simpa using h, rfl⟩
  | cons v vs ih =>
    obtain ⟨s1, h1, hl1, -⟩ := PushBack_spec s ns v h (by simp at hb; omega)
    obtain ⟨s2, ns2, h2, hl2, hv2⟩ := ih s1 _ hl1 (by simp at hb ⊢; omega)
    refine ⟨s2, (s.cells.length, v) :: ns2, ?_, by simpa using hl2, by simp [values] at hv2 ⊢; exact hv2⟩
    show (PushBack v >>= fun _ => PushBack_all vs) s = _
    rw [bind_apply, h1]
    exact h2

theorem values_getElem (ns : List (Nat × T)) (i : Nat) (hi : i < ns.length)
    (hj : i < (values ns).length) : (ns[i]).2 = (values ns)[i] := by
  simp [values]

/-- C1: after `N` calls of `PushBack` with the values `vs` on an empty list (with `N`
a `size_t`), `Length()` is `N`, `list[i]` returns the `i`-th value for every
`i < N`, and `Back()` returns the last value pushed. -/
theorem PushBack_all_index (cells : List (Option (Element T))) (vs : List T)
    (hN : vs.length ≤ SIZE_MAX) :
    ∃ s1, PushBack_all vs (init cells) = .ok () s1 ∧ Length s1 = .ok vs.length s1 ∧
      (∀ i (hi : i < vs.length), index i s1 = .ok vs[i] s1) ∧
      (∀ ws w, vs = ws ++ [w] → Back s1 = .ok w s1) := by
  obtain ⟨s1, ns1, h1, hl, hv⟩ :=
    PushBack_all_spec vs (init cells) [] (IsList_init cells) (by simpa using hN)
  rw [List.nil_append] at hl
  have hlen : ns1.length = vs.length := by rw [← hv]; simp [values]
  refine ⟨s1, h1, ?_, ?_, ?_⟩
  · show Outcome.ok s1.size s1 = _
    rw [hl.2.2.2.2.1, hlen]
  · intro i hi
    rw [index_spec hl i (by omega), values_getElem ns1 i (by omega) (by rw [hv]; exact hi)]
    simp only [hv]
  · intro ws w hw
    rcases List.eq_nil_or_concat ns1 with rfl | ⟨xs, n, rfl⟩
    · rw [hw] at hlen; simp at hlen
    · simp only [List.concat_eq_append] at *
      rw [Back_spec hl]
      have : values (xs ++ [n]) = ws ++ [w] := by rw [hv, hw]
      simp only [values, List.map_append, List.map_cons, List.map_nil] at this
      rw [(List.append_inj' this rfl).2 |> List.singleton_inj.1]

/-- Witness of C1: `PushBack(1); PushBack(2); PushBack(3)` on an empty list. -/
theorem PushBack_all_index_witness :
    [1, 2, 3].length ≤ SIZE_MAX ∧
    ∃ s1, PushBack_all [1, 2, 3] (init ([] : List (Option (Element Nat)))) = .ok () s1 ∧
      Length s1 = .ok 3 s1 ∧ index 0 s1 = .ok 1 s1 ∧ index 1 s1 = .ok 2 s1 ∧
      index 2 s1 = .ok 3 s1 ∧ Back s1 = .ok 3 s1 := by
  obtain ⟨s1, h1, h2, h3, h4⟩ := PushBack_all_index ([] : List (Option (Element Nat))) [1, 2, 3]
    (by decide)
  exact ⟨by decide, s1, h1, h2, h3 0 (by decide), h3 1 (by decide), h3 2 (by decide),
    h4 [1, 2] 3 rfl⟩

theorem pushes_cons (c : Cmd T) (cs : List (Cmd T)) :
    pushes (c :: cs) = (if c.isPush then 1 else 0) + pushes cs := by
  cases h : c.isPush <;> simp [pushes, List.filter_cons, h, Nat.add_comm]

theorem pops_cons (c : Cmd T) (cs : List (Cmd T)) :
    pops (c :: cs) = (if c.isPush then 0 else 1) + pops cs := by
  cases h : c.isPush <;> simp [pops, List.filter_cons, h, Nat.add_comm]

theorem run_all_spec (cmds : List (Cmd T)) (s : State T) (ns : List (Nat × T)) (h : IsList s ns)
    (hv : NoPopOnEmpty ns.length cmds = true) (hb : ns.length + pushes cmds ≤ SIZE_MAX) :
    ∃ s1 ns1, run_all cmds s = .ok () s1 ∧ IsList s1 ns1 ∧
      ns1.length + pops cmds = ns.length + pushes cmds := by
  induction cmds generalizing s ns with
  | nil => exact ⟨s, ns, rfl, h, rfl⟩
  | cons c cmds ih =>
    rw [pushes_cons] at hb
    have step : ∀ s1 ns1, c.run s = .ok () s1 → IsList s1 ns1 →
        NoPopOnEmpty ns1.length cmds = true →
        ns1.length + (if c.isPush then 0 else 1) = ns.length + (if c.isPush then 1 else 0) →
        ∃ s2 ns2, run_all (c :: cmds) s = .ok () s2 ∧ IsList s2 ns2 ∧
          ns2.length + pops (c :: cmds) = ns.length + pushes (c :: cmds) := by
      intro s1 ns1 hrun hl1 hv1 hlen
      obtain ⟨s2, ns2, h2, hl2, hlen2⟩ := ih s1 ns1 hl1 hv1 (by omega)
      refine ⟨s2, ns2, ?_, hl2, ?_⟩
      · show (c.run >>= fun _ => run_all cmds) s = _
        rw [bind_apply, hrun]
        exact h2
      · rw [pushes_cons, pops_cons]; omega
    cases c with
    | PushBack v =>
      simp only [NoPopOnEmpty, Cmd.isPush, if_true] at hv hb
      obtain ⟨s1, h1, hl1, -⟩ := PushBack_spec s ns v h (by omega)
      exact step s1 _ h1 hl1 (by simpa using hv) (by simp [Cmd.isPush])
    | PushFront v =>
      simp only [NoPopOnEmpty, Cmd.isPush, if_true] at hv hb
      obtain ⟨s1, h1, hl1, -⟩ := PushFront_spec s ns v h (by omega)
      exact step s1 _ h1 hl1 (by simpa using hv) (by simp [Cmd.isPush])
    | PopBack =>
      simp [NoPopOnEmpty, Cmd.isPush] at hv
      rcases List.eq_nil_or_concat ns with rfl | ⟨xs, n, rfl⟩
      · simp at hv
      · simp only [List.concat_eq_append] at *
        obtain ⟨s1, h1, hl1, -⟩ := PopBack_spec s xs n h
        exact step s1 _ h1 hl1 (by simpa using hv.2) (by simp [Cmd.isPush])
    | PopFront =>
      simp [NoPopOnEmpty, Cmd.isPush] at hv
      cases ns with
      | nil => simp at hv
      | cons n rest =>
        obtain ⟨s1, h1, hl1, -⟩ := PopFront_spec s n rest h
        exact step s1 _ h1 hl1 (by simpa using hv.2) (by simp [Cmd.isPush])

/-- C5: for every sequence of `PushBack`/`PushFront`/`PopBack`/`PopFront` calls run
from an empty list in which no pop meets an empty list (and the pushes fit a
`size_t`), the run returns normally, `Length()` is the number of pushes minus the
number of pops, and the traversal from `begin()` to `end()` visits that many
elements. -/
theorem run_all_Length (cells : List (Option (Element T))) (cmds : List (Cmd T))
    (hv : NoPopOnEmpty 0 cmds = true) (hb : pushes cmds ≤ SIZE_MAX) :
    ∃ s1 vs, run_all cmds (init cells) = .ok () s1 ∧
      Length s1 = .ok (pushes cmds - pops cmds) s1 ∧
      traverse s1 = .ok vs s1 ∧ vs.length = pushes cmds - pops cmds := by
  obtain ⟨s1, ns1, h1, hl, hlen⟩ :=
    run_all_spec cmds (init cells) [] (IsList_init cells) hv (by simpa using hb)
  simp only [List.length_nil, Nat.zero_add] at hlen
  refine ⟨s1, values ns1, h1, ?_, traverse_spec hl, by simp [values]; omega⟩
  show Outcome.ok s1.size s1 = _
  rw [hl.2.2.2.2.1]
  congr 1
  omega

/-- Witness of C5: two pushes, a pop at each end, a push. -/
theorem run_all_Length_witness :
    NoPopOnEmpty 0
        [Cmd.PushBack 1, Cmd.PushFront 2, Cmd.PopBack, Cmd.PopFront, Cmd.PushBack 7] = true ∧
    pushes [Cmd.PushBack 1, Cmd.PushFront 2, Cmd.PopBack, Cmd.PopFront, Cmd.PushBack 7]
        ≤ SIZE_MAX ∧
    ∃ s1 vs, run_all [Cmd.PushBack 1, Cmd.PushFront 2, Cmd.PopBack, Cmd.PopFront, Cmd.PushBack 7]
        (init ([] : List (Option (Element Nat)))) = .ok () s1 ∧
      Length s1 = .ok 1 s1 ∧ traverse s1 = .ok vs s1 ∧ vs.length = 1 :=
  ⟨by decide, by decide, run_all_Length ([] : List (Option (Element Nat)))
    [Cmd.PushBack 1, Cmd.PushFront 2, Cmd.PopBack, Cmd.PopFront, Cmd.PushBack 7]
    (by decide) (by decide)⟩

/-! ## Failures -/

/-- C4 (the code at the failing input): on an empty list neither `PopFront` nor
`PopBack` throws a `std::logic_error`; `PopFront` evaluates `first->next_element`
and `PopBack` evaluates `tail->prev_element` with a null pointer. -/
theorem Pop_on_empty_null_deref (cells : List (Option (Element T))) :
    PopFront (init cells) = .fault .null_deref ∧ PopBack (init cells) = .fault .null_deref := by
  constructor
  · simp [PopFront, getState, init, move_next, deref]
  · simp [PopBack, getState, init, deref]

theorem EraseByIterator_end (s : State T) : EraseByIterator none s = .thrown s := by
  simp [EraseByIterator, end_, throw_logic_error]

theorem EraseByNumber_out_of_range {s : State T} {ns : List (Nat × T)} (h : IsList s ns) (k : Nat)
    (hk : ns.length ≤ k) : EraseByNumber k s = .thrown s := by
  show (begin >>= fun it => advance k it >>= fun it1 => EraseByIterator it1) s = _
  simp only [bind_apply, begin, h.2.2.1]
  rcases Nat.eq_or_lt_of_le hk with e | hlt
  · rw [advance_Seg h.1 k (by omega), ← e, List.drop_length]
    exact EraseByIterator_end s
  · rw [advance_past h.1 k hlt]

theorem EraseByNumber_in_range {s : State T} {ns : List (Nat × T)} (h : IsList s ns) (k : Nat)
    (hk : k < ns.length) : EraseByNumber k s = EraseByIterator (some (ns[k]).1) s := by
  show (begin >>= fun it => advance k it >>= fun it1 => EraseByIterator it1) s = _
  simp only [bind_apply, begin, h.2.2.1]
  rw [advance_Seg h.1 k (by omega), List.drop_eq_getElem_cons hk]
  rfl

/-- C6: on a well-formed list with `Length() == c`, `EraseByNumber(n)` throws a
`std::logic_error` exactly when `n >= c`, and the state at the throw is the state
before the call. -/
theorem EraseByNumber_throws_iff (s : State T) (ns : List (Nat × T)) (h : IsList s ns)
    (c n : Nat) (hc : Length s = .ok c s) :
    ((∃ s1, EraseByNumber n s = .thrown s1) ↔ n ≥ c) ∧
      (∀ s1, EraseByNumber n s = .thrown s1 → s1 = s) := by
  have hc1 : c = ns.length := by
    have : Outcome.ok s.size s = Outcome.ok c s := hc
    injection this with h1
    rw [← h1, h.2.2.2.2.1]
  subst hc1
  by_cases hn : ns.length ≤ n
  · have ht := EraseByNumber_out_of_range h n hn
    refine ⟨⟨fun _ => hn, fun _ => ⟨s, ht⟩⟩, ?_⟩
    intro s1 h1
    rw [ht] at h1
    injection h1 with h2
    exact h2.symm
  · have hin := EraseByNumber_in_range h n (by omega)
    have hnt : ∀ s1, EraseByNumber n s ≠ .thrown s1 := by
      intro s1
      rw [hin]
      exact NoThrow_EraseByIterator _ s s1
    exact ⟨⟨fun ⟨s1, h1⟩ => absurd h1 (hnt s1), fun h1 => absurd h1 hn⟩,
      fun s1 h1 => absurd h1 (hnt s1)⟩

/-- Witness of C6: `EraseByNumber(3)` on the list `1, 2, 3`. -/
theorem EraseByNumber_throws_iff_witness :
    IsList list123 [(0, 1), (1, 2), (2, 3)] ∧ Length list123 = .ok 3 list123 ∧
      ((∃ s1, EraseByNumber 3 list123 = .thrown s1) ↔ 3 ≥ 3) ∧
      (∀ s1, EraseByNumber 3 list123 = .thrown s1 → s1 = list123) :=
  ⟨by decide, rfl, EraseByNumber_throws_iff list123 [(0, 1), (1, 2), (2, 3)] (by decide) 3 3 rfl⟩

theorem Front_empty (s : State T) (h : s.size = 0) : Front s = .thrown s := by
  simp [Front, getState, h, throw_logic_error]

theorem Back_empty (s : State T) (h : s.size = 0) : Back s = .thrown s := by
  simp [Back, getState, h, throw_logic_error]

theorem Length_eq (s : State T) (c : Nat) : Length s = .ok c s ↔ s.size = c := by
  constructor
  · intro h
    have : Outcome.ok s.size s = Outcome.ok c s := h
    injection this
  · intro h
    show Outcome.ok s.size s = _
    rw [h]

/-- C7: on a well-formed list `Front()` and `Back()` throw a `std::logic_error`
exactly when `Length() == 0`, the state at the throw is the state before the call,
and on a non-empty list `Front()` returns the value that the traversal from
`begin()` meets first and `Back()` the value of the last node, both in an
unchanged state. -/
theorem Front_Back_throw_iff (s : State T) (ns : List (Nat × T)) (h : IsList s ns) :
    ((∃ s1, Front s = .thrown s1) ↔ Length s = .ok 0 s) ∧
      ((∃ s1, Back s = .thrown s1) ↔ Length s = .ok 0 s) ∧
      (∀ s1, Front s = .thrown s1 → s1 = s) ∧ (∀ s1, Back s = .thrown s1 → s1 = s) ∧
      (∀ n rest, ns = n :: rest →
        traverse s = .ok (n.2 :: values rest) s ∧ Front s = .ok n.2 s) ∧
      (∀ xs n, ns = xs ++ [n] → Back s = .ok n.2 s) := by
  rw [Length_eq]
  rcases List.eq_nil_or_concat ns with rfl | ⟨xs, n, rfl⟩
  · have h0 : s.size = 0 := h.2.2.2.2.1
    have hF := Front_empty s h0
    have hB := Back_empty s h0
    refine ⟨⟨fun _ => h0, fun _ => ⟨s, hF⟩⟩, ⟨fun _ => h0, fun _ => ⟨s, hB⟩⟩, ?_, ?_, ?_, ?_⟩
    · intro s1 h1; rw [hF] at h1; injection h1 with h2; exact h2.symm
    · intro s1 h1; rw [hB] at h1; injection h1 with h2; exact h2.symm
    · intro n rest e; simp at e
    · intro ys n e; simp at e
  · simp only [List.concat_eq_append] at *
    have h0 : s.size ≠ 0 := by rw [h.2.2.2.2.1]; simp
    have hB := Back_spec h
    have hF : ∀ m rest, xs ++ [n] = m :: rest →
        traverse s = .ok (m.2 :: values rest) s ∧ Front s = .ok m.2 s := by
      intro m rest e
      rw [e] at h
      exact ⟨traverse_spec h, Front_spec h⟩
    obtain ⟨m, rest, e⟩ : ∃ m rest, xs ++ [n] = m :: rest := by
      cases xs with
      | nil => exact ⟨n, [], rfl⟩
      | cons m r => exact ⟨m, r ++ [n], rfl⟩
    have hF1 := (hF m rest e).2
    refine ⟨⟨fun ⟨s1, h1⟩ => ?_, fun h1 => absurd h1 h0⟩,
      ⟨fun ⟨s1, h1⟩ => ?_, fun h1 => absurd h1 h0⟩, ?_, ?_, hF, ?_⟩
    · rw [hF1] at h1; cases h1
    · rw [hB] at h1; cases h1
    · intro s1 h1; rw [hF1] at h1; cases h1
    · intro s1 h1; rw [hB] at h1; cases h1
    · intro ys k e1
      obtain ⟨-, e2⟩ := List.append_inj' e1 rfl
      rw [← List.singleton_inj.1 e2]
      exact hB

/-- Witness of C7: the list `1, 2, 3`. -/
theorem Front_Back_throw_iff_witness :
    IsList list123 [(0, 1), (1, 2), (2, 3)] ∧
      ((∃ s1, Front list123 = .thrown s1) ↔ Length list123 = .ok 0 list123) ∧
      ((∃ s1, Back list123 = .thrown s1) ↔ Length list123 = .ok 0 list123) ∧
      (∀ s1, Front list123 = .thrown s1 → s1 = list123) ∧
      (∀ s1, Back list123 = .thrown s1 → s1 = list123) ∧
      (∀ n rest, [(0, 1), (1, 2), (2, 3)] = n :: rest →
        traverse list123 = .ok (n.2 :: values rest) list123 ∧ Front list123 = .ok n.2 list123) ∧
      (∀ xs n, [(0, 1), (1, 2), (2, 3)] = xs ++ [n] → Back list123 = .ok n.2 list123) :=
  ⟨by decide, Front_Back_throw_iff list123 [(0, 1), (1, 2), (2, 3)] (by decide)⟩

/-- C8: on a well-formed list with `Length() == c`, `operator[](index)` throws a
`std::logic_error` exactly when `index >= c`, with the state at the throw the state
before the call; otherwise it returns, in an unchanged state, the value of the node
at position `index`, which is the node reached by advancing `index` times from
`begin()`. -/
theorem index_throws_iff (s : State T) (ns : List (Nat × T)) (h : IsList s ns) (c i : Nat)
    (hc : Length s = .ok c s) :
    ((∃ s1, index i s = .thrown s1) ↔ i ≥ c) ∧ (∀ s1, index i s = .thrown s1 → s1 = s) ∧
      (∀ hi : i < ns.length, index i s = .ok (ns[i]).2 s ∧
        (begin >>= fun it => advance i it >>= fun it1 => star it1) s = .ok (ns[i]).2 s) := by
  rw [Length_eq] at hc
  have hc1 : c = ns.length := by rw [← hc, h.2.2.2.2.1]
  subst hc1
  by_cases hi : i < ns.length
  · have hok := index_spec h i hi
    refine ⟨⟨fun ⟨s1, h1⟩ => ?_, fun h1 => absurd hi (by omega)⟩, ?_, fun _ => ⟨hok, ?_⟩⟩
    · rw [hok] at h1; cases h1
    · intro s1 h1; rw [hok] at h1; cases h1
    · obtain ⟨e, he, hv⟩ := Seg_getElem h.1 i hi
      simp only [bind_apply, begin, h.2.2.1]
      rw [advance_Seg h.1 i (by omega), List.drop_eq_getElem_cons hi]
      simp only [hd, star_cell he, hv]
  · have ht := index_out_of_range s i (by rw [hc]; omega)
    refine ⟨⟨fun _ => by omega, fun _ => ⟨s, ht⟩⟩, ?_, fun hi1 => absurd hi1 hi⟩
    intro s1 h1; rw [ht] at h1; injection h1 with h2; exact h2.symm

/-- Witness of C8: index 1 of the list `1, 2, 3`. -/
theorem index_throws_iff_witness :
    IsList list123 [(0, 1), (1, 2), (2, 3)] ∧ Length list123 = .ok 3 list123 ∧
      ((∃ s1, index 1 list123 = .thrown s1) ↔ 1 ≥ 3) ∧
      (∀ s1, index 1 list123 = .thrown s1 → s1 = list123) ∧
      (∀ hi : 1 < [(0, 1), (1, 2), (2, 3)].length,
        index 1 list123 = .ok ([(0, 1), (1, 2), (2, 3)][1]).2 list123 ∧
        (begin >>= fun it => advance 1 it >>= fun it1 => star it1) list123
          = .ok ([(0, 1), (1, 2), (2, 3)][1]).2 list123) :=
  ⟨by decide, rfl, index_throws_iff list123 [(0, 1), (1, 2), (2, 3)] (by decide) 3 1 rfl⟩

/-! ## Insertion at the ends -/

theorem IsList_grow {s : State T} {ns : List (Nat × T)} (h : IsList s ns)
    (l : List (Option (Element T))) :
    IsList { s with cells := s.cells ++ l } ns :=
  ⟨Seg_push h.1 l, h.2.1, h.2.2.1, h.2.2.2.1, h.2.2.2.2.1, h.2.2.2.2.2⟩

theorem InsertByIterator_begin (s : State T) (v : T) :
    InsertByIterator s.first v s
      = PushFront v { s with cells := s.cells ++ [some ⟨v, none, none⟩] } := by
  simp [InsertByIterator, allocate_construct, begin]

theorem InsertByIterator_end (s : State T) (v : T) (h : s.first ≠ none) :
    InsertByIterator none v s
      = PushBack v { s with cells := s.cells ++ [some ⟨v, none, none⟩] } := by
  have h1 : ¬ none = s.first := fun e => h e.symm
  simp [InsertByIterator, allocate_construct, begin, h1]

theorem InsertByNumber_zero_eq {s : State T} {ns : List (Nat × T)} (h : IsList s ns) (v : T) :
    InsertByNumber 0 v s = PushFront v { s with cells := s.cells ++ [some ⟨v, none, none⟩] } := by
  rw [← InsertByIterator_begin]
  simp only [InsertByNumber, bind_apply, begin, Length]
  by_cases h0 : 0 ≥ s.size
  · have hns : ns = [] := by
      have := h.2.2.2.2.1
      exact List.length_eq_zero.1 (by omega)
    have hf : s.first = none := by rw [h.2.2.1, hns]; rfl
    simp only [h0, if_true, hf]
    rfl
  · simp only [h0, if_false, advance]
    rfl

theorem InsertByNumber_past_eq {s : State T} {ns : List (Nat × T)} (h : IsList s ns) (v : T)
    (n : Nat) (hn : n ≥ ns.length) :
    InsertByNumber n v s = InsertByIterator none v s := by
  have h0 : n ≥ s.size := by rw [h.2.2.2.2.1]; exact hn
  simp only [InsertByNumber, bind_apply, begin, Length, h0, if_true, end_]

/-- C9: on a well-formed list that is not full, `InsertByNumber(0, v)` and
`PushFront(v)` both return normally and leave the same list: the former nodes
preceded by one new node holding `v`, hence the same `Length()`, the same
traversal, the same `Front()` and the same `Back()`. -/
theorem InsertByNumber_zero_PushFront (s : State T) (ns : List (Nat × T)) (h : IsList s ns)
    (v : T) (hb : ns.length < SIZE_MAX) :
    ∃ s1 s2 a b, PushFront v s = .ok () s1 ∧ InsertByNumber 0 v s = .ok () s2 ∧
      IsList s1 ((a, v) :: ns) ∧ IsList s2 ((b, v) :: ns) ∧
      Length s1 = .ok (ns.length + 1) s1 ∧ Length s2 = .ok (ns.length + 1) s2 ∧
      traverse s1 = .ok (v :: values ns) s1 ∧ traverse s2 = .ok (v :: values ns) s2 ∧
      Front s1 = .ok v s1 ∧ Front s2 = .ok v s2 ∧
      ∃ w, Back s1 = .ok w s1 ∧ Back s2 = .ok w s2 := by
  obtain ⟨s1, h1, hl1, -⟩ := PushFront_spec s ns v h hb
  obtain ⟨s2, h2, hl2, -⟩ := PushFront_spec _ ns v (IsList_grow h [some ⟨v, none, none⟩]) hb
  rw [← InsertByNumber_zero_eq h] at h2
  refine ⟨s1, s2, _, _, h1, h2, hl1, hl2, ?_, ?_, traverse_spec hl1, traverse_spec hl2,
    Front_spec hl1, Front_spec hl2, ?_⟩
  · rw [Length_eq, hl1.2.2.2.2.1]; rfl
  · rw [Length_eq, hl2.2.2.2.2.1]; rfl
  · rcases List.eq_nil_or_concat ns with rfl | ⟨xs, n, rfl⟩
    · exact ⟨v, @Back_spec T s1 [] _ hl1, @Back_spec T s2 [] _ hl2⟩
    · simp only [List.concat_eq_append] at *
      exact ⟨n.2, @Back_spec T s1 (_ :: xs) n hl1, @Back_spec T s2 (_ :: xs) n hl2⟩

/-- Witness of C9: `InsertByNumber(0, 9)` and `PushFront(9)` on the list `1, 2, 3`. -/
theorem InsertByNumber_zero_PushFront_witness :
    IsList list123 [(0, 1), (1, 2), (2, 3)] ∧ [(0, 1), (1, 2), (2, 3)].length < SIZE_MAX ∧
    ∃ s1 s2 a b, PushFront 9 list123 = .ok () s1 ∧ InsertByNumber 0 9 list123 = .ok () s2 ∧
      IsList s1 ((a, 9) :: [(0, 1), (1, 2), (2, 3)]) ∧
      IsList s2 ((b, 9) :: [(0, 1), (1, 2), (2, 3)]) ∧
      Length s1 = .ok (3 + 1) s1 ∧ Length s2 = .ok (3 + 1) s2 ∧
      traverse s1 = .ok (9 :: values [(0, 1), (1, 2), (2, 3)]) s1 ∧
      traverse s2 = .ok (9 :: values [(0, 1), (1, 2), (2, 3)]) s2 ∧
      Front s1 = .ok 9 s1 ∧ Front s2 = .ok 9 s2 ∧
      ∃ w, Back s1 = .ok w s1 ∧ Back s2 = .ok w s2 :=
  ⟨by decide, by decide,
    InsertByNumber_zero_PushFront list123 [(0, 1), (1, 2), (2, 3)] (by decide) 9 (by decide)⟩

/-- C10: on a well-formed list with `Length() == c` that is not full, for every
`n >= c` the call `InsertByNumber(n, v)` returns normally, as `PushBack(v)` does,
and both leave the same list: the former nodes in their order followed by one new
node holding `v`, so `Length()` is `c + 1` and `Back()` is `v`. -/
theorem InsertByNumber_past_PushBack (s : State T) (ns : List (Nat × T)) (h : IsList s ns)
    (v : T) (c n : Nat) (hc : Length s = .ok c s) (hn : n ≥ c) (hb : c < SIZE_MAX) :
    ∃ s1 s2 a b, PushBack v s = .ok () s1 ∧ InsertByNumber n v s = .ok () s2 ∧
      IsList s1 (ns ++ [(a, v)]) ∧ IsList s2 (ns ++ [(b, v)]) ∧
      Length s1 = .ok (c + 1) s1 ∧ Length s2 = .ok (c + 1) s2 ∧
      traverse s1 = .ok (values ns ++ [v]) s1 ∧ traverse s2 = .ok (values ns ++ [v]) s2 ∧
      Back s1 = .ok v s1 ∧ Back s2 = .ok v s2 := by
  rw [Length_eq] at hc
  have hc1 : c = ns.length := by rw [← hc, h.2.2.2.2.1]
  subst hc1
  obtain ⟨s1, h1, hl1, -⟩ := PushBack_spec s ns v h hb
  have hg := IsList_grow h [some ⟨v, none, none⟩]
  have hins : ∃ s2 b, InsertByNumber n v s = .ok () s2 ∧ IsList s2 (ns ++ [(b, v)]) := by
    rw [InsertByNumber_past_eq h v n hn]
    cases hns : ns with
    | nil =>
      subst hns
      have hf : none = s.first := h.2.2.1.symm
      rw [hf, InsertByIterator_begin s v]
      obtain ⟨s2, h2, hl2, -⟩ := PushFront_spec _ [] v hg hb
      exact ⟨s2, _, h2, hl2⟩
    | cons m rest =>
      have hf : s.first ≠ none := by rw [h.2.2.1, hns]; simp [hd]
      rw [InsertByIterator_end s v hf, ← hns]
      obtain ⟨s2, h2, hl2, -⟩ := PushBack_spec _ ns v hg hb
      exact ⟨s2, _, h2, hl2⟩
  obtain ⟨s2, b, h2, hl2⟩ := hins
  have hval : ∀ a : Nat, values (ns ++ [(a, v)]) = values ns ++ [v] := by
    intro a; simp [values]
  refine ⟨s1, s2, _, b, h1, h2, hl1, hl2, ?_, ?_, ?_, ?_, Back_spec hl1, Back_spec hl2⟩
  · rw [Length_eq, hl1.2.2.2.2.1]; simp
  · rw [Length_eq, hl2.2.2.2.2.1]; simp
  · rw [traverse_spec hl1, hval]
  · rw [traverse_spec hl2, hval]

/-- Witness of C10: `InsertByNumber(10, 9)` on the list `1, 2, 3`. -/
theorem InsertByNumber_past_PushBack_witness :
    IsList list123 [(0, 1), (1, 2), (2, 3)] ∧ Length list123 = .ok 3 list123 ∧ 10 ≥ 3 ∧
    3 < SIZE_MAX ∧
    ∃ s1 s2 a b, PushBack 9 list123 = .ok () s1 ∧ InsertByNumber 10 9 list123 = .ok () s2 ∧
      IsList s1 ([(0, 1), (1, 2), (2, 3)] ++ [(a, 9)]) ∧
      IsList s2 ([(0, 1), (1, 2), (2, 3)] ++ [(b, 9)]) ∧
      Length s1 = .ok (3 + 1) s1 ∧ Length s2 = .ok (3 + 1) s2 ∧
      traverse s1 = .ok (values [(0, 1), (1, 2), (2, 3)] ++ [9]) s1 ∧
      traverse s2 = .ok (values [(0, 1), (1, 2), (2, 3)] ++ [9]) s2 ∧
      Back s1 = .ok 9 s1 ∧ Back s2 = .ok 9 s2 :=
  ⟨by decide, rfl, by decide, by decide,
    InsertByNumber_past_PushBack list123 [(0, 1), (1, 2), (2, 3)] (by decide) 9 3 10 rfl
      (by decide) (by decide)⟩

/-! ## Insertion and erasure in the middle -/

theorem freeAll_length (cells : List (Option (Element T))) (as : List Nat) :
    (freeAll cells as).length = cells.length := by
  induction as with
  | nil => rfl
  | cons a rest ih => simp [freeAll, ih]

theorem freeAll_not_mem (cells : List (Option (Element T))) (as : List Nat) (b : Nat)
    (hb : b ∉ as) : (freeAll cells as)[b]? = cells[b]? := by
  induction as with
  | nil => rfl
  | cons a rest ih =>
    simp only [List.mem_cons, not_or] at hb
    show ((freeAll cells rest).set a none)[b]? = _
    rw [List.getElem?_set_ne (fun e => hb.1 e.symm), ih hb.2]

theorem freeAll_mem (cells : List (Option (Element T))) (as : List Nat) (b : Nat)
    (hb : b ∈ as) (hlt : b < cells.length) : (freeAll cells as)[b]? = some none := by
  induction as with
  | nil => simp at hb
  | cons a rest ih =>
    show ((freeAll cells rest).set a none)[b]? = _
    by_cases e : a = b
    · subst e
      rw [List.getElem?_set, if_pos rfl, if_pos (by rw [freeAll_length]; exact hlt)]
    · have hb1 : b ∈ rest := by
        rcases List.mem_cons.1 hb with e1 | h1
        · exact absurd e1.symm e
        · exact h1
      rw [List.getElem?_set_ne e, ih hb1]

/-- Releasing the first node of a chain that ends in null deallocates the whole
chain, given fuel for each of its nodes. -/
theorem release_Seg {s : State T} {prev : Option Nat} {ns : List (Nat × T)}
    (h : Seg s.cells prev ns none) (fuel : Nat) (hfuel : ns.length ≤ fuel) :
    release fuel (hd ns none) s
      = .ok () { s with cells := freeAll s.cells (ns.map Prod.fst) } := by
  induction ns generalizing prev fuel with
  | nil => cases fuel <;> rfl
  | cons n rest ih =>
    cases fuel with
    | zero => simp at hfuel
    | succ fuel =>
      have h1 := ih h.2 fuel (by simpa using hfuel)
      show (deref (some n.1) >>= fun e => release fuel e.next_element >>= fun _ =>
        deallocate n.1) s = _
      simp only [bind_apply, deref_cell h.1, h1]
      rfl

theorem deleter_Seg {s : State T} {prev : Option Nat} {ns : List (Nat × T)}
    (h : Seg s.cells prev ns none) (hnd : (ns.map Prod.fst).Nodup) :
    deleter (hd ns none) s = .ok () { s with cells := freeAll s.cells (ns.map Prod.fst) } :=
  release_Seg h _ (Nat.le_succ_of_le (nodes_le_cells h hnd))

theorem traverse_loop_dangling {s : State T} {prev : Option Nat} {ns : List (Nat × T)} {x : Nat}
    (h : Seg s.cells prev ns (some x)) (hx : s.cells[x]? = some none) (fuel : Nat)
    (hfuel : ns.length < fuel) :
    traverse_loop fuel (hd ns (some x)) s = .fault .dangling := by
  induction ns generalizing prev fuel with
  | nil =>
    cases fuel with
    | zero => simp at hfuel
    | succ fuel => simp [traverse_loop, hd, end_, star, deref, hx]
  | cons n rest ih =>
    cases fuel with
    | zero => simp at hfuel
    | succ fuel =>
      have := ih h.2 fuel (by simpa using hfuel)
      simp [traverse_loop, hd, end_, star_cell h.1, pre_incr_cell h.1] at this ⊢
      simp [this]

theorem deleter_none (s : State T) : deleter none s = .ok () s := rfl

/-- On a well-formed list, `InsertByNumber` before a node `d` that has a predecessor
`p` returns with `size` grown by one, but `d` and every node after it have been
released, and the traversal runs into the released node. -/
theorem InsertByNumber_inner (s : State T) (pre post : List (Nat × T)) (p d : Nat × T) (v : T)
    (h : IsList s (pre ++ p :: d :: post)) (hb : (pre ++ p :: d :: post).length < SIZE_MAX) :
    ∃ s1, InsertByNumber (pre.length + 1) v s = .ok () s1 ∧
      s1.size = (pre ++ p :: d :: post).length + 1 ∧
      (∀ a ∈ (d :: post).map Prod.fst, s1.cells[a]? = some none) ∧
      traverse s1 = .fault .dangling := by
  have hfresh : ∀ a ∈ (pre ++ p :: d :: post).map Prod.fst, a < s.cells.length :=
    fun a ha => Seg_lt h.1 ha
  obtain ⟨hseg, hnd, hf, ht, hsz, -⟩ := h
  have hsplit : pre ++ p :: d :: post = (pre ++ [p]) ++ d :: post := by simp
  have hadv : advance (pre.length + 1) (hd (pre ++ p :: d :: post) none) s
      = .ok (some d.1) s := by
    rw [advance_Seg hseg _ (by simp), hsplit,
      List.drop_left' (by simp : (pre ++ [p]).length = pre.length + 1)]
    rfl
  have hk : ¬ pre.length + 1 ≥ s.size := by rw [hsz]; simp
  rw [hsplit, Seg_append] at hseg
  obtain ⟨hpre, hd1, hpost⟩ := hseg
  have hp := Seg_last hpre
  rw [lst_append_singleton] at hd1
  simp only [hd] at hp
  rw [List.map_append, List.nodup_append] at hnd
  obtain ⟨hndpre, hnd2, hdisj⟩ := hnd
  simp only [List.map_cons, List.nodup_cons, List.mem_cons, not_or] at hnd2
  have hdp : ¬ d.1 = p.1 := fun e => hnd2.1.1 e.symm
  have hpd : ¬ p.1 = d.1 := hnd2.1.1
  have hdpre : d.1 ∉ pre.map Prod.fst := fun hm => hdisj hm (by simp)
  have hppre : p.1 ∉ pre.map Prod.fst := fun hm => hdisj hm (by simp)
  have hfirst : ¬ some d.1 = s.first := by
    rw [hf, hd_append]
    intro e
    rcases hd_mem e.symm with e1 | hm
    · exact hdp e1
    · exact hdpre hm
  have hdlt : d.1 < s.cells.length := cell_lt hd1
  have hplt : p.1 < s.cells.length := cell_lt hp
  have hdr : ¬ d.1 = s.cells.length := by omega
  have hrd : ¬ s.cells.length = d.1 := by omega
  have hpr : ¬ p.1 = s.cells.length := by omega
  have hrp : ¬ s.cells.length = p.1 := by omega
  have hdlt1 : d.1 < s.cells.length + 1 := by omega
  have hplt1 : p.1 < s.cells.length + 1 := by omega
  have hins : InsertByNumber (pre.length + 1) v s = InsertByIterator (some d.1) v s := by
    simp only [InsertByNumber, bind_apply, begin, Length, hk, if_false, hf, hadv]
  have key : InsertByIterator (some d.1) v s =
      (deleter (some d.1) >>= fun _ => inc_size)
        (State.mk
          (List.set
            (List.set
              (List.set (s.cells ++ [some (Element.mk v none (some p.1))]) d.1
                (some (Element.mk d.2 (hd post none) (some s.cells.length))))
              s.cells.length (some (Element.mk v (some d.1) (some p.1))))
            p.1 (some (Element.mk p.2 (some s.cells.length) (lst none pre))))
          s.size s.first s.tail) := by
    simp [InsertByIterator, allocate_construct, begin, hfirst, deref, set_prev, store,
      assign_next, List.getElem?_set, List.getElem?_append_left hdlt,
      List.getElem?_append_left hplt, hd1, hp, hdlt1, hplt1, hdr, hrd, hpr, hrp, hdp, hpd,
      deleter_none, List.getElem?_concat_length, -List.getElem?_eq_getElem]
  have hpostd : d.1 ∉ post.map Prod.fst := hnd2.2.1
  have hpostp : p.1 ∉ post.map Prod.fst := hnd2.1.2
  have hpostr : s.cells.length ∉ post.map Prod.fst := fun hm =>
    Nat.lt_irrefl _ (hfresh _ (by simp at hm ⊢; exact Or.inr (Or.inr (Or.inr hm))))
  have hprer : s.cells.length ∉ pre.map Prod.fst := fun hm =>
    Nat.lt_irrefl _ (hfresh _ (by simp at hm ⊢; exact Or.inl hm))
  have hsegd : Seg (List.set
            (List.set
              (List.set (s.cells ++ [some (Element.mk v none (some p.1))]) d.1
                (some (Element.mk d.2 (hd post none) (some s.cells.length))))
              s.cells.length (some (Element.mk v (some d.1) (some p.1))))
            p.1 (some (Element.mk p.2 (some s.cells.length) (lst none pre))))
      (some s.cells.length) (d :: post) none := by
    refine ⟨?_, Seg_set (Seg_set (Seg_set (Seg_push hpost _) _ hpostd) _ hpostr) _ hpostp⟩
    simp [List.getElem?_set, hdlt1, hdr, hrd, hpd, hdp, -List.getElem?_eq_getElem]
  have hsegpre : Seg (List.set
            (List.set
              (List.set (s.cells ++ [some (Element.mk v none (some p.1))]) d.1
                (some (Element.mk d.2 (hd post none) (some s.cells.length))))
              s.cells.length (some (Element.mk v (some d.1) (some p.1))))
            p.1 (some (Element.mk p.2 (some s.cells.length) (lst none pre))))
      none (pre ++ [p, (s.cells.length, v)]) (some d.1) := by
    rw [Seg_append] at hpre ⊢
    refine ⟨Seg_set (Seg_set (Seg_set (Seg_push hpre.1 _) _ hdpre) _ hprer) _ hppre, ?_, ?_, trivial⟩
    · simp [List.getElem?_set, hplt1, hd, -List.getElem?_eq_getElem]
    · simp [List.getElem?_set, hrp, hpr, hd, -List.getElem?_eq_getElem]
  have hlen : (List.set
            (List.set
              (List.set (s.cells ++ [some (Element.mk v none (some p.1))]) d.1
                (some (Element.mk d.2 (hd post none) (some s.cells.length))))
              s.cells.length (some (Element.mk v (some d.1) (some p.1))))
            p.1 (some (Element.mk p.2 (some s.cells.length) (lst none pre)))).length
      = s.cells.length + 1 := by simp
  generalize (List.set
            (List.set
              (List.set (s.cells ++ [some (Element.mk v none (some p.1))]) d.1
                (some (Element.mk d.2 (hd post none) (some s.cells.length))))
              s.cells.length (some (Element.mk v (some d.1) (some p.1))))
            p.1 (some (Element.mk p.2 (some s.cells.length) (lst none pre)))) = cs4
    at key hsegd hsegpre hlen
  have hndd : ((d :: post).map Prod.fst).Nodup := by
    simp only [List.map_cons, List.nodup_cons]
    exact ⟨hnd2.2.1, hnd2.2.2⟩
  have hdel : deleter (some d.1) (State.mk cs4 s.size s.first s.tail) = _ :=
    deleter_Seg hsegd hndd
  have hndpre1 : ((pre ++ [p, (s.cells.length, v)]).map Prod.fst).Nodup := by
    simp only [List.map_append, List.map_cons, List.map_nil, List.nodup_append, List.nodup_cons,
      List.mem_cons, List.mem_singleton, List.not_mem_nil, not_false_eq_true, List.nodup_nil,
      and_true, or_false]
    refine ⟨hndpre, hpr, ?_⟩
    intro a ha hm
    rcases List.mem_cons.1 hm with e | hm1
    · exact hppre (e ▸ ha)
    · rw [List.mem_singleton] at hm1
      exact hprer (hm1 ▸ ha)
  have hframe : Seg (freeAll cs4 ((d :: post).map Prod.fst)) none
      (pre ++ [p, (s.cells.length, v)]) (some d.1) := by
    refine Seg_frame hsegpre ?_
    intro a ha
    refine freeAll_not_mem _ _ _ ?_
    intro hm
    simp only [List.map_append, List.map_cons, List.map_nil, List.mem_append, List.mem_cons,
      List.mem_singleton, List.not_mem_nil, or_false] at ha hm
    rcases ha with ha | rfl | rfl
    · rcases hm with rfl | hm
      · exact hdpre ha
      · exact hdisj ha (List.mem_cons_of_mem _ (List.mem_cons_of_mem _ hm))
    · rcases hm with e | hm
      · exact hpd e
      · exact hpostp hm
    · rcases hm with e | hm
      · exact hrd e
      · exact hpostr hm
  have hfreed : ∀ a ∈ (d :: post).map Prod.fst,
      (freeAll cs4 ((d :: post).map Prod.fst))[a]? = some none := by
    intro a ha
    refine freeAll_mem _ _ _ ha ?_
    have := hfresh a (by simp at ha ⊢; exact Or.inr (Or.inr ha))
    omega
  refine ⟨State.mk (freeAll cs4 ((d :: post).map Prod.fst))
    ((s.size + 1) % (SIZE_MAX + 1)) s.first s.tail, ?_, ?_, hfreed, ?_⟩
  · rw [hins, key, bind_apply, hdel]
    rfl
  · show (s.size + 1) % (SIZE_MAX + 1) = _
    rw [hsz, inc_mod hb]
  · have hfuel := nodes_le_cells hframe hndpre1
    have hfst : s.first = hd (pre ++ [p, (s.cells.length, v)]) (some d.1) := by
      rw [hf, hd_append, hd_append]; rfl
    simp only [traverse, bind_apply, getState, begin]
    rw [hfst]
    exact traverse_loop_dangling hframe (hfreed d.1 (by simp)) _ (by omega)

/-- C2 (the code at the failing input): on the list `1, 2` built by two calls of
`PushBack`, `InsertByNumber(1, 9)` returns with `Length() == 3`, but the node that
held `2` has been destroyed and deallocated: the move assignment to the
predecessor's `next_element` ran the deleter on it.  The traversal from `begin()`
and `list[2]` then read a released node instead of yielding `1, 9, 2`. -/
theorem InsertByNumber_middle_releases :
    PushBack_all [1, 2] (init []) = .ok () list12 ∧
      InsertByNumber 1 9 list12 = .ok () list12_after_insert ∧
      Length list12_after_insert = .ok 3 list12_after_insert ∧
      list12_after_insert.cells[1]? = some none ∧
      traverse list12_after_insert = .fault .dangling ∧
      index 2 list12_after_insert = .fault .dangling := by
  decide!

/-- On a well-formed list, erasing a node that has a predecessor `p` and a
successor `q` reads the erased node `d` after it has been released. -/
theorem EraseByNumber_inner (s : State T) (pre post : List (Nat × T)) (p d q : Nat × T)
    (h : IsList s (pre ++ p :: d :: q :: post)) :
    EraseByNumber (pre.length + 1) s = .fault .dangling := by
  obtain ⟨hseg, hnd, hf, ht, -, -⟩ := h
  have hsplit : pre ++ p :: d :: q :: post = (pre ++ [p]) ++ d :: q :: post := by simp
  have hadv : advance (pre.length + 1) (hd (pre ++ p :: d :: q :: post) none) s
      = .ok (some d.1) s := by
    rw [advance_Seg hseg _ (by simp), hsplit,
      List.drop_left' (by simp : (pre ++ [p]).length = pre.length + 1)]
    rfl
  rw [hsplit, Seg_append] at hseg
  obtain ⟨hpre, hd1, -⟩ := hseg
  have hp := Seg_last hpre
  rw [lst_append_singleton] at hd1
  simp only [hd] at hp hd1
  rw [List.map_append, List.nodup_append] at hnd
  obtain ⟨-, hnd2, hdisj⟩ := hnd
  simp only [List.map_cons, List.nodup_cons, List.mem_cons, not_or] at hnd2
  have hdp : ¬ d.1 = p.1 := fun e => hnd2.1.1 e.symm
  have hpd : ¬ p.1 = d.1 := hnd2.1.1
  have hdpre : d.1 ∉ pre.map Prod.fst := fun hm => hdisj hm (by simp)
  have hfirst : ¬ some d.1 = s.first := by
    rw [hf, hd_append]
    intro e
    rcases hd_mem e.symm with e1 | hm
    · exact hdp e1
    · exact hdpre hm
  have htail : ¬ some d.1 = s.tail := by
    rw [ht, lst_append]
    intro e
    have e2 : lst (some q.1) post = some d.1 := e.symm
    rcases lst_mem e2 with e1 | hm
    · exact hnd2.2.1.1 e1
    · exact hnd2.2.1.2 hm
  have hdlt : d.1 < s.cells.length := cell_lt hd1
  show (begin >>= fun it => advance (pre.length + 1) it >>= fun it1 => EraseByIterator it1) s = _
  simp only [bind_apply, begin, hf, hadv]
  simp [EraseByIterator, end_, begin, getState, hfirst, htail, deref, hd1, move_next, store,
    assign_next, List.getElem?_set, hdlt, hdp, hpd, hp, deleter, release, deallocate]

/-- On a well-formed list `EraseByNumber(0)` removes the first node. -/
theorem EraseByNumber_first (s : State T) (n : Nat × T) (rest : List (Nat × T))
    (h : IsList s (n :: rest)) :
    ∃ s1, EraseByNumber 0 s = .ok () s1 ∧ IsList s1 rest := by
  obtain ⟨s1, h1, hl1, -⟩ := PopFront_spec s n rest h
  refine ⟨s1, ?_, hl1⟩
  rw [EraseByNumber_in_range h 0 (by simp), ← h1]
  have hf : s.first = some n.1 := h.2.2.1
  simp [EraseByIterator, end_, begin, hf]

/-- On a well-formed list of `n` elements `EraseByNumber(n - 1)` removes the last
node. -/
theorem EraseByNumber_last (s : State T) (xs : List (Nat × T)) (n : Nat × T)
    (h : IsList s (xs ++ [n])) :
    ∃ s1, EraseByNumber xs.length s = .ok () s1 ∧ IsList s1 xs := by
  cases xs with
  | nil => exact EraseByNumber_first s n [] h
  | cons m rest =>
    obtain ⟨s1, h1, hl1, -⟩ := PopBack_spec s (m :: rest) n h
    refine ⟨s1, ?_, hl1⟩
    have hget : ∀ hi : (m :: rest).length < ((m :: rest) ++ [n]).length,
        ((m :: rest) ++ [n])[(m :: rest).length] = n := by
      intro hi; simp
    rw [EraseByNumber_in_range h (m :: rest).length (by simp), hget (by simp), ← h1]
    have hf : s.first = some m.1 := h.2.2.1
    have ht : s.tail = some n.1 := by rw [h.2.2.2.1, lst_append_singleton]
    have hnm : ¬ n.1 = m.1 := by
      have hnd := h.2.1
      rw [List.map_append, List.nodup_append] at hnd
      intro e
      exact hnd.2.2 (by simp [e] : n.1 ∈ List.map Prod.fst (m :: rest)) (by simp)
    simp [EraseByIterator, end_, begin, hf, hnm, getState, ht]

/-- C3 (the code at the failing input): on the list `1, 2, 3` built by three calls
of `PushBack`, `EraseByNumber(1)` does not return: after the move assignment to the
predecessor's `next_element` has destroyed and deallocated the erased node, the
statement `d_it.it_ptr = d_it.it_ptr->prev_element` reads that node.  Erasing the
first or the last element returns and leaves `2, 3` and `1, 2`. -/
theorem EraseByNumber_middle_dangling :
    PushBack_all [1, 2, 3] (init []) = .ok () list123 ∧
      EraseByNumber 1 list123 = .fault .dangling ∧
      (EraseByNumber 0 >>= fun _ => traverse) list123 = .ok [2, 3]
        { cells := [none, some ⟨2, some 2, none⟩, some ⟨3, none, some 1⟩],
          size := 2, first := some 1, tail := some 2 } ∧
      (EraseByNumber 2 >>= fun _ => traverse) list123 = .ok [1, 2]
        { cells := [some ⟨1, some 1, none⟩, some ⟨2, none, some 0⟩, none],
          size := 2, first := some 0, tail := some 1 } := by
  decide!

/-! ## Round trip and insertion at the front -/

theorem Seg_cells_eq {cs d : List (Option (Element T))} {prev nxt : Option Nat}
    {ns : List (Nat × T)} (h1 : Seg cs prev ns nxt) (h2 : Seg d prev ns nxt) :
    ∀ a ∈ ns.map Prod.fst, d[a]? = cs[a]? := by
  induction ns generalizing prev with
  | nil => intro a ha; simp at ha
  | cons n rest ih =>
    intro a ha
    simp only [List.map_cons, List.mem_cons] at ha
    rcases ha with rfl | ha
    · rw [h1.1, h2.1]
    · exact ih h1.2 h2.2 a ha

/-- C11: on a well-formed list that is not full, `PushBack(x)` followed by
`PopBack()` returns normally and restores the list: the same nodes at the same
addresses with the same contents, hence the same `Length()`, the same element
sequence, the same `first` and `tail` references and the same `Front()` and
`Back()`. -/
theorem PushBack_PopBack_restores (s : State T) (ns : List (Nat × T)) (h : IsList s ns) (x : T)
    (hb : ns.length < SIZE_MAX) :
    ∃ s1 s2, PushBack x s = .ok () s1 ∧ PopBack s1 = .ok () s2 ∧ IsList s2 ns ∧
      s2.size = s.size ∧ s2.first = s.first ∧ s2.tail = s.tail ∧
      (∀ a ∈ ns.map Prod.fst, s2.cells[a]? = s.cells[a]?) ∧
      traverse s = .ok (values ns) s ∧ traverse s2 = .ok (values ns) s2 ∧
      (∀ v, Front s = .ok v s → Front s2 = .ok v s2) ∧
      (∀ v, Back s = .ok v s → Back s2 = .ok v s2) := by
  obtain ⟨s1, h1, hl1, -⟩ := PushBack_spec s ns x h hb
  obtain ⟨s2, h2, hl2, -⟩ := PopBack_spec s1 ns _ hl1
  refine ⟨s1, s2, h1, h2, hl2, ?_, ?_, ?_, Seg_cells_eq h.1 hl2.1, traverse_spec h,
    traverse_spec hl2, ?_, ?_⟩
  · rw [hl2.2.2.2.2.1, h.2.2.2.2.1]
  · rw [hl2.2.2.1, h.2.2.1]
  · rw [hl2.2.2.2.1, h.2.2.2.1]
  · intro v hv
    cases ns with
    | nil => rw [Front_empty s h.2.2.2.2.1] at hv; cases hv
    | cons n rest =>
      rw [Front_spec h] at hv
      rw [Front_spec hl2]
      injection hv with hv1
      rw [hv1]
  · intro v hv
    rcases List.eq_nil_or_concat ns with rfl | ⟨xs, n, rfl⟩
    · rw [Back_empty s h.2.2.2.2.1] at hv; cases hv
    · simp only [List.concat_eq_append] at *
      rw [Back_spec h] at hv
      rw [Back_spec hl2]
      injection hv with hv1
      rw [hv1]

/-- Witness of C11: `PushBack(9); PopBack()` on the list `1, 2, 3`. -/
theorem PushBack_PopBack_restores_witness :
    IsList list123 [(0, 1), (1, 2), (2, 3)] ∧ [(0, 1), (1, 2), (2, 3)].length < SIZE_MAX ∧
    ∃ s1 s2, PushBack 9 list123 = .ok () s1 ∧ PopBack s1 = .ok () s2 ∧
      IsList s2 [(0, 1), (1, 2), (2, 3)] ∧
      s2.size = list123.size ∧ s2.first = list123.first ∧ s2.tail = list123.tail ∧
      (∀ a ∈ [(0, 1), (1, 2), (2, 3)].map Prod.fst, s2.cells[a]? = list123.cells[a]?) ∧
      traverse list123 = .ok (values [(0, 1), (1, 2), (2, 3)]) list123 ∧
      traverse s2 = .ok (values [(0, 1), (1, 2), (2, 3)]) s2 ∧
      (∀ v, Front list123 = .ok v list123 → Front s2 = .ok v s2) ∧
      (∀ v, Back list123 = .ok v list123 → Back s2 = .ok v s2) :=
  ⟨by decide, by decide,
    PushBack_PopBack_restores list123 [(0, 1), (1, 2), (2, 3)] (by decide) 9 (by decide)⟩

/-- C12: on a well-formed list that is not full, `PushFront(v)` returns normally and
makes a new node holding `v` the head in front of the former nodes: `Length()` grows
by one, `Front()` is `v`, the traversal yields `v` and then the former elements, and
on an empty list `Back()` is `v` as well. -/
theorem PushFront_new_head (s : State T) (ns : List (Nat × T)) (h : IsList s ns) (v : T)
    (hb : ns.length < SIZE_MAX) :
    ∃ s1 a, PushFront v s = .ok () s1 ∧ IsList s1 ((a, v) :: ns) ∧
      Length s1 = .ok (ns.length + 1) s1 ∧ Front s1 = .ok v s1 ∧
      traverse s1 = .ok (v :: values ns) s1 ∧ (ns = [] → Back s1 = .ok v s1) := by
  obtain ⟨s1, h1, hl1, -⟩ := PushFront_spec s ns v h hb
  refine ⟨s1, _, h1, hl1, ?_, Front_spec hl1, traverse_spec hl1, ?_⟩
  · rw [Length_eq, hl1.2.2.2.2.1]; rfl
  · intro e
    subst e
    exact @Back_spec T s1 [] _ hl1

/-- Witness of C12: `PushFront(5)` on the empty list. -/
theorem PushFront_new_head_witness :
    IsList (init ([] : List (Option (Element Nat)))) [] ∧
    ([] : List (Nat × Nat)).length < SIZE_MAX ∧
    ∃ s1 a, PushFront 5 (init ([] : List (Option (Element Nat)))) = .ok () s1 ∧
      IsList s1 ((a, 5) :: []) ∧ Length s1 = .ok (0 + 1) s1 ∧ Front s1 = .ok 5 s1 ∧
      traverse s1 = .ok (5 :: values []) s1 ∧
      (([] : List (Nat × Nat)) = [] → Back s1 = .ok 5 s1) :=
  ⟨by decide, by decide,
    PushFront_new_head (init ([] : List (Option (Element Nat)))) [] (by decide) 5 (by decide)⟩

/-! ## Assignment -/

theorem operator_assign_stmts_run {s : State T} {nd : List (Nat × T)} (hdst : IsList s nd)
    (src : ListObj) :
    operator_assign_stmts (some src) s = .ok (some { src with first := none })
      { cells := freeAll s.cells (nd.map Prod.fst), size := src.size, first := src.first,
        tail := s.tail } := by
  have hdel := @deleter_Seg T (State.mk s.cells src.size src.first s.tail) none nd hdst.1
    hdst.2.1
  simp only [operator_assign_stmts, assign_first, bind_apply, getState, hdst.2.2.1, hdel,
    pure_apply]

/-- The two statements of `operator=` with the destination itself as the argument
leave the state as it is: the handle `first` is empty when the move assignment looks
for a pointer to delete. -/
theorem operator_assign_stmts_self (s : State T) : operator_assign_stmts none s = .ok none s := by
  cases s
  simp [operator_assign_stmts, assign_first, getState, deleter_none]

/-- A call of `operator=` never returns normally, from whatever state and with
whatever argument. -/
theorem operator_assign_never_returns (s s1 : State T) (other r : Option ListObj) :
    operator_assign other s ≠ .ok r s1 := by
  show (operator_assign_stmts other >>= fun _ => fun _ => Outcome.fault Fault.no_return) s ≠ _
  rw [bind_apply]
  cases operator_assign_stmts other s <;> simp

/-- For a well-formed destination and a well-formed source that is another object
with nodes of its own, the two statements of `operator=` leave the destination with
the former size and elements of the source (its own former chain is released), and
the source with a null head but its former `size` and `tail`. -/
theorem operator_assign_stmts_moves (s : State T) (src : ListObj) (nd ns : List (Nat × T))
    (hdst : IsList s nd) (hsrc : IsList (s.withObj src) ns)
    (hdisj : ∀ a ∈ nd.map Prod.fst, a ∉ ns.map Prod.fst) :
    ∃ s1 src1 c, operator_assign_stmts (some src) s = .ok (some src1) s1 ∧
      Length (s.withObj src) = .ok c (s.withObj src) ∧ Length s1 = .ok c s1 ∧
      traverse (s.withObj src) = .ok (values ns) (s.withObj src) ∧
      traverse s1 = .ok (values ns) s1 ∧
      begin (s1.withObj src1) = end_ (s1.withObj src1) ∧
      Length (s1.withObj src1) = .ok c (s1.withObj src1) ∧ src1.tail = src.tail := by
  have hseg : Seg (freeAll s.cells (nd.map Prod.fst)) none ns none := by
    refine Seg_frame hsrc.1 ?_
    intro a ha
    exact freeAll_not_mem _ _ _ (fun hm => hdisj a hm ha)
  have hlen : ns.length ≤ (freeAll s.cells (nd.map Prod.fst)).length :=
    nodes_le_cells hseg hsrc.2.1
  have hfirst : src.first = hd ns none := hsrc.2.2.1
  refine ⟨_, _, src.size, operator_assign_stmts_run hdst src, rfl, rfl, traverse_spec hsrc, ?_,
    rfl, rfl, rfl⟩
  simp only [traverse, bind_apply, getState, begin, hfirst]
  exact traverse_loop_Seg hseg _ (by omega)

/-- C13 (the code at the failing input): with the destination `7` and the source
`1, 2`, two different lists, the two statements of `operator=` move the chain and
the size of the source into the destination and empty the head of the source, but
the call `dst = src` does not return: control flows off the end of `operator=`,
which has to return a `List&`. -/
theorem operator_assign_no_return :
    IsList dst7 [(0, 7)] ∧ IsList (dst7.withObj src12) [(1, 1), (2, 2)] ∧
      operator_assign_stmts (some src12) dst7
        = .ok (some { size := 2, first := none, tail := some 2 })
          { cells := [none, some ⟨1, some 2, none⟩, some ⟨2, none, some 1⟩],
            size := 2, first := some 1, tail := some 0 } ∧
      operator_assign (some src12) dst7 = .fault .no_return := by
  decide!

/-! ## Forward iterators -/

/-- C14: pre-increment throws a `std::logic_error` exactly when the position is
null; on a live node it sets the position to the successor of that node (null for
a last node).  Post-increment throws in the same case and otherwise returns the
position before the call together with the same new position. -/
theorem incr_spec (s : State T) (a : Nat) (e : Element T) (h : s.cells[a]? = some (some e)) :
    (∀ it, (∃ s1, pre_incr it s = .thrown s1) ↔ it = none) ∧
      (∀ it, (∃ s1, post_incr it s = .thrown s1) ↔ it = none) ∧
      pre_incr none s = .thrown s ∧ post_incr none s = .thrown s ∧
      pre_incr (some a) s = .ok e.next_element s ∧
      post_incr (some a) s = .ok (some a, e.next_element) s ∧
      (∀ it, post_incr it s = (pre_incr it >>= fun it1 => pure (it, it1)) s) := by
  have hpre : ∀ b s1, pre_incr (some b) s ≠ .thrown s1 := by
    intro b s1
    simp only [pre_incr, reduceCtorEq, if_false]
    exact NoThrow_bind (NoThrow_deref _) (fun _ => NoThrow_pure _) s s1
  have hpost : ∀ it, post_incr it s = (pre_incr it >>= fun it1 => pure (it, it1)) s :=
    fun _ => rfl
  have hnone : pre_incr none s = .thrown s := rfl
  refine ⟨?_, ?_, hnone, ?_, pre_incr_cell h, ?_, hpost⟩
  · intro it
    cases it with
    | none => exact ⟨fun _ => rfl, fun _ => ⟨s, hnone⟩⟩
    | some b => exact ⟨fun ⟨s1, h1⟩ => absurd h1 (hpre b s1), fun h1 => by cases h1⟩
  · intro it
    cases it with
    | none => exact ⟨fun _ => rfl, fun _ => ⟨s, rfl⟩⟩
    | some b =>
      refine ⟨fun ⟨s1, h1⟩ => ?_, fun h1 => by cases h1⟩
      rw [hpost, bind_apply] at h1
      cases hp : pre_incr (some b) s with
      | ok it1 s2 => rw [hp] at h1; cases h1
      | thrown s2 => exact absurd hp (hpre b s2)
      | fault f => rw [hp] at h1; cases h1
  · rfl
  · rw [hpost, bind_apply, pre_incr_cell h]
    rfl

/-- Witness of C14: the iterator at the last node of the list `1, 2, 3`. -/
theorem incr_spec_witness :
    list123.cells[2]? = some (some ⟨3, none, some 1⟩) ∧
      (∀ it, (∃ s1, pre_incr it list123 = .thrown s1) ↔ it = none) ∧
      (∀ it, (∃ s1, post_incr it list123 = .thrown s1) ↔ it = none) ∧
      pre_incr none list123 = .thrown list123 ∧ post_incr none list123 = .thrown list123 ∧
      pre_incr (some 2) list123 = .ok none list123 ∧
      post_incr (some 2) list123 = .ok (some 2, none) list123 ∧
      (∀ it, post_incr it list123 = (pre_incr it >>= fun it1 => pure (it, it1)) list123) :=
  ⟨by decide, incr_spec list123 2 ⟨3, none, some 1⟩ (by decide)⟩

/-! ## The invariants on well-formed lists and after an insertion in the middle -/

theorem lst_some (a : Nat) (xs : List (Nat × T)) : ∃ t, lst (some a) xs = some t := by
  induction xs generalizing a with
  | nil => exact ⟨a, rfl⟩
  | cons x rest ih => exact ih x.1

theorem follow_Seg {cs : List (Option (Element T))} {prev nxt : Option Nat} {n : Nat × T}
    {rest : List (Nat × T)} (h : Seg cs prev (n :: rest) nxt) :
    follow cs rest.length n.1 = lst (some n.1) rest := by
  induction rest generalizing n prev with
  | nil => rfl
  | cons m r ih =>
    have h1 := h.1
    simp only [hd] at h1
    show follow cs (r.length + 1) n.1 = lst (some m.1) r
    simp only [follow, h1]
    exact ih h.2

theorem chain_Seg {cs : List (Option (Element T))} {prev : Option Nat} {ns : List (Nat × T)}
    (h : Seg cs prev ns none) (fuel : Nat) (hfuel : ns.length ≤ fuel) :
    chain cs fuel (hd ns none) = some ns := by
  induction ns generalizing prev fuel with
  | nil => cases fuel <;> rfl
  | cons n rest ih =>
    cases fuel with
    | zero => simp at hfuel
    | succ fuel =>
      have h1 := ih h.2 fuel (by simpa using hfuel)
      show chain cs (fuel + 1) (some n.1) = some (n :: rest)
      simp only [chain, h.1, h1, Option.map_some']

/-- A well-formed list satisfies the List invariant of the spec. -/
theorem IsList_ListInv {s : State T} {ns : List (Nat × T)} (h : IsList s ns) : ListInv s := by
  obtain ⟨hseg, -, hf, ht, hsz, -⟩ := h
  rcases List.eq_nil_or_concat ns with rfl | ⟨xs, m, rfl⟩
  · have h1 : s.first = none := hf
    have h2 : s.tail = none := ht
    have h3 : s.size = 0 := hsz
    exact ⟨by simp [h1, h3], by simp [h1, h2], fun h4 => by omega⟩
  · simp only [List.concat_eq_append] at *
    have hlast := Seg_last hseg
    rw [lst_append_singleton] at ht
    obtain ⟨n, rest, e⟩ : ∃ n rest, xs ++ [m] = n :: rest := by
      cases xs with
      | nil => exact ⟨m, [], rfl⟩
      | cons n r => exact ⟨n, r ++ [m], rfl⟩
    rw [e] at hseg hf hsz
    have h1 : s.first = some n.1 := hf
    have hfol := follow_Seg hseg
    have hl : lst (some n.1) rest = some m.1 := by
      have : lst none (xs ++ [m]) = some m.1 := lst_append_singleton _ _ _
      rw [e] at this
      exact this
    refine ⟨by simp [h1, hsz], by simp [h1, ht], fun _ => ?_⟩
    unfold TailReached
    rw [h1, ht]
    refine ⟨?_, ?_⟩
    · rw [hsz, ← hl, ← hfol]; rfl
    · simp only [next_at, hlast]

/-- A well-formed list satisfies the link invariant of the spec. -/
theorem IsList_LinkInv {s : State T} {ns : List (Nat × T)} (h : IsList s ns) : LinkInv s := by
  have hlen := IsList_length_le h
  obtain ⟨hseg, -, hf, ht, -, -⟩ := h
  unfold LinkInv
  rw [hf, chain_Seg hseg _ hlen]
  exact ⟨hseg, ht⟩

/-- C15 (the code at the failing input): the List invariant holds for `List()` and
for the list `1, 2`, and the call `InsertByIterator(it, 9)` with `it` at the second
node (`InsertByNumber(1, 9)`) returns normally in a state where it fails: `tail` is
the address of a released node, which has no `next`. -/
theorem ListInv_lost_by_insert :
    ListInv (init ([] : List (Option (Element Nat)))) ∧ ListInv list12 ∧
      InsertByIterator (some 1) 9 list12 = .ok () list12_after_insert ∧
      InsertByNumber 1 9 list12 = .ok () list12_after_insert ∧
      list12_after_insert.tail = some 1 ∧ next_at list12_after_insert.cells 1 = none ∧
      ¬ ListInv list12_after_insert := by
  decide!

/-- C16 (the code at the failing input): the link invariant holds for `List()` and
for the list `1, 2`, and `InsertByNumber(1, 9)` returns normally in a state where it
fails: the chain from `first` runs into a released node, so it has no element whose
`next` is null. -/
theorem LinkInv_lost_by_insert :
    LinkInv (init ([] : List (Option (Element Nat)))) ∧ LinkInv list12 ∧
      InsertByNumber 1 9 list12 = .ok () list12_after_insert ∧
      chain list12_after_insert.cells 3 list12_after_insert.first = none ∧
      ¬ LinkInv list12_after_insert := by
  decide!

/-- C17 (the code at the failing input): on the list `1, 2`, `InsertByIterator(it, 9)`
with `it` at the second node releases that node: it was live before the call and is
deallocated after it, while the new node at address 2 still points to it. -/
theorem InsertByIterator_releases_node :
    IsList list12 [(0, 1), (1, 2)] ∧
      list12.cells[1]? = some (some ⟨2, none, some 0⟩) ∧
      InsertByIterator (some 1) 9 list12 = .ok () list12_after_insert ∧
      list12_after_insert.cells[1]? = some none ∧
      list12_after_insert.cells[2]? = some (some ⟨9, some 1, some 0⟩) := by
  decide!

theorem Back_by_tail_spec {s : State T} {xs : List (Nat × T)} {n : Nat × T}
    (h : IsList s (xs ++ [n])) : Back_by_tail s = .ok n.2 s := by
  have hlast := Seg_last h.1
  have ht : s.tail = some n.1 := by rw [h.2.2.2.1, lst_append_singleton]
  have h0 : s.size ≠ 0 := by rw [h.2.2.2.2.1]; simp
  simp [Back_by_tail, getState, h0, ht, deref, hlast]

/-- On a well-formed non-empty list the walk of `Back` and the `tail` reference give
the same result, the value of the last node. -/
theorem Back_eq_Back_by_tail {s : State T} {xs : List (Nat × T)} {n : Nat × T}
    (h : IsList s (xs ++ [n])) : Back s = Back_by_tail s ∧ Back s = .ok n.2 s := by
  rw [Back_spec h, Back_by_tail_spec h]
  exact ⟨rfl, rfl⟩

/-- C18 (the code at the failing input): after `PushBack(1); PushBack(2);
InsertByNumber(1, 9)` the list has `Length() == 3`, and `Back()` walks from `first`
into the released node that `tail` still refers to instead of returning a value. -/
theorem Back_after_insert_dangling :
    (PushBack_all [1, 2] >>= fun _ => InsertByNumber 1 9) (init [])
        = .ok () list12_after_insert ∧
      Length list12_after_insert = .ok 3 list12_after_insert ∧
      list12_after_insert.tail = some 1 ∧ list12_after_insert.cells[1]? = some none ∧
      Back list12_after_insert = .fault .dangling ∧
      Back_by_tail list12_after_insert = .fault .dangling := by
  decide!

/-! ## The tail reference across an assignment -/

theorem release_tail (fuel : Nat) (p : Option Nat) (s s1 : State T)
    (h : release fuel p s = .ok () s1) : s1.tail = s.tail := by
  induction fuel generalizing p s s1 with
  | zero =>
    cases p with
    | none => cases h; rfl
    | some a => cases h
  | succ fuel ih =>
    cases p with
    | none => cases h; rfl
    | some a =>
      have h1 : (deref (some a) >>= fun e => release fuel e.next_element >>= fun _ =>
          deallocate a) s = .ok () s1 := h
      simp only [bind_apply, deref] at h1
      cases hc : s.cells[a]? with
      | none => rw [hc] at h1; cases h1
      | some x =>
        cases x with
        | none => rw [hc] at h1; cases h1
        | some e =>
          rw [hc] at h1
          simp only at h1
          cases hr : release fuel e.next_element s with
          | ok u s2 =>
            rw [hr] at h1
            simp only [deallocate] at h1
            cases h1
            exact ih e.next_element s s2 hr
          | thrown s2 => rw [hr] at h1; cases h1
          | fault f => rw [hr] at h1; cases h1

theorem operator_assign_stmts_tail (d d1 : State T) (o o1 : Option ListObj)
    (h : operator_assign_stmts o d = .ok o1 d1) : d1.tail = d.tail := by
  cases o with
  | none =>
    rw [operator_assign_stmts_self] at h
    cases h
    rfl
  | some o =>
    simp only [operator_assign_stmts, assign_first, bind_apply, getState, deleter] at h
    cases hr : release (d.cells.length + 1) d.first
        (State.mk d.cells o.size o.first d.tail) with
    | ok u s2 =>
      rw [hr] at h
      cases h
      exact release_tail _ _ (State.mk d.cells o.size o.first d.tail) _ hr
    | thrown s2 => rw [hr] at h; cases h
    | fault f => rw [hr] at h; cases h

/-- The two statements of `operator=` never write the `tail` of the destination.
For an empty destination and a well-formed non-empty source that is another object
they leave the destination with `size >= 1`, a non-null `first` and a null `tail`: a
state in which the List invariant fails and from which `PushBack(v)` and `PopBack()`
dereference the null `tail`. -/
theorem operator_assign_stmts_keeps_tail (s : State T) (src : ListObj) (n : Nat × T)
    (rest : List (Nat × T)) (v : T) (hdst : IsList s [])
    (hsrc : IsList (s.withObj src) (n :: rest)) :
    (∀ (d d1 : State T) (o o1 : Option ListObj),
        operator_assign_stmts o d = .ok o1 d1 → d1.tail = d.tail) ∧
      ∃ s1 src1 c, operator_assign_stmts (some src) s = .ok src1 s1 ∧ Length s1 = .ok c s1 ∧
        1 ≤ c ∧ s1.first ≠ none ∧ s1.tail = none ∧ ¬ ListInv s1 ∧
        PushBack v s1 = .fault .null_deref ∧ PopBack s1 = .fault .null_deref := by
  refine ⟨operator_assign_stmts_tail, ?_⟩
  have hrun := operator_assign_stmts_run hdst src
  have ht : s.tail = none := hdst.2.2.2.1
  have hf : src.first = some n.1 := hsrc.2.2.1
  have hsz : src.size = rest.length + 1 := hsrc.2.2.2.2.1
  have h0 : src.size ≠ 0 := by omega
  simp only [List.map_nil, freeAll, ht, hf] at hrun
  refine ⟨_, _, src.size, hrun, rfl, by omega, by simp, rfl, ?_, ?_, ?_⟩
  · intro hinv
    have := hinv.2.1.2 rfl
    simp at this
  · simp [PushBack, allocate_construct, getState, h0, assign_next, deref]
  · simp [PopBack, getState, deref]

/-- C19 (the code at the failing input): with an empty destination and the source
`1, 2`, the two statements of `operator=` leave `tail` null while `size` is 2 and
`first` is non-null, a state from which `PushBack(9)` and `PopBack()` dereference
the null `tail`; but there is no state after `dst = src`, because the call does not
return: control flows off the end of `operator=`, which has to return a `List&`. -/
theorem operator_assign_empty_dst_no_return :
    IsList dst_empty [] ∧ IsList (dst_empty.withObj src12_at0) [(0, 1), (1, 2)] ∧
      operator_assign_stmts (some src12_at0) dst_empty
        = .ok (some { size := 2, first := none, tail := some 1 })
          { cells := [some ⟨1, some 1, none⟩, some ⟨2, none, some 0⟩],
            size := 2, first := some 0, tail := none } ∧
      PushBack 9 ({ cells := [some ⟨1, some 1, none⟩, some ⟨2, none, some 0⟩],
                    size := 2, first := some 0, tail := none } : State Nat)
        = .fault .null_deref ∧
      PopBack ({ cells := [some ⟨1, some 1, none⟩, some ⟨2, none, some 0⟩],
                 size := 2, first := some 0, tail := none } : State Nat)
        = .fault .null_deref ∧
      operator_assign (some src12_at0) dst_empty = .fault .no_return := by
  decide!

/-! ## Allocations of an insertion at an end -/

/-- `PushFront` leaves every cell outside the list as it is. -/
theorem PushFront_frame (s : State T) (ns : List (Nat × T)) (v : T) (h : IsList s ns)
    (hb : ns.length < SIZE_MAX) (b : Nat) (hbn : b ∉ ns.map Prod.fst)
    (hbl : b < s.cells.length) :
    ∃ s1, PushFront v s = .ok () s1 ∧ s1.cells[b]? = s.cells[b]? := by
  obtain ⟨hseg, hnd, hf, ht, hsz, _⟩ := h
  have hinc : (s.size + 1) % (SIZE_MAX + 1) = ns.length + 1 := by rw [hsz, inc_mod hb]
  cases ns with
  | nil =>
    simp only [hd, lst, List.length_nil, Nat.zero_add] at hf ht hinc
    simp [PushFront, allocate_construct, getState, assign_first, assign_next, set_tail, inc_size,
      deleter, release, hf, deref, store, hinc]
    exact List.getElem?_append_left hbl
  | cons m rest =>
    obtain ⟨hm, hrest⟩ := hseg
    simp only [hd] at hf
    have hlt : m.1 < s.cells.length := cell_lt hm
    have hlt1 : m.1 < s.cells.length + 1 := by omega
    have hne : ¬ m.1 = s.cells.length := by omega
    have hne1 : ¬ s.cells.length = m.1 := by omega
    have hmb : m.1 ≠ b := fun e => hbn (by simp [← e])
    simp [PushFront, allocate_construct, getState, assign_first, assign_next, set_tail, inc_size,
      deleter, release, hf, deref, store, hinc, set_prev, List.getElem?_set, hlt1, hne, hne1,
      List.getElem?_append_left hlt, hm]
    cases rest with
    | nil =>
      simp [deref, List.getElem?_set, hne, set_tail]
      rw [if_neg hmb, List.getElem?_append_left hbl]
    | cons m2 rest2 =>
      simp
      rw [List.getElem?_set_ne hmb, List.getElem?_append_left hbl]

/-- `PushBack` leaves every cell outside the list as it is. -/
theorem PushBack_frame (s : State T) (ns : List (Nat × T)) (v : T) (h : IsList s ns)
    (hb : ns.length < SIZE_MAX) (b : Nat) (hbn : b ∉ ns.map Prod.fst)
    (hbl : b < s.cells.length) :
    ∃ s1, PushBack v s = .ok () s1 ∧ s1.cells[b]? = s.cells[b]? := by
  obtain ⟨hseg, hnd, hf, ht, hsz, _⟩ := h
  rcases List.eq_nil_or_concat ns with rfl | ⟨xs, n, rfl⟩
  · simp [hd, lst] at hf ht hsz
    simp [PushBack, allocate_construct, getState, hsz, assign_first, set_tail, inc_size, deleter,
      release, hf]
    exact List.getElem?_append_left hbl
  · simp only [List.concat_eq_append] at *
    rw [Seg_append] at hseg
    obtain ⟨hxs, hn, -⟩ := hseg
    simp [hd] at hn
    simp [lst_append_singleton] at ht
    have hsz0 : s.size ≠ 0 := by simp [hsz]
    have hlt : n.1 < s.cells.length := cell_lt hn
    have hlt1 : n.1 < s.cells.length + 1 := by omega
    have hne : ¬ n.1 = s.cells.length := by omega
    have hne1 : ¬ s.cells.length = n.1 := by omega
    have hnb : n.1 ≠ b := fun e => hbn (by simp [← e])
    have hrb : s.cells.length ≠ b := by omega
    simp [PushBack, allocate_construct, getState, hsz0, ht, assign_next, deref, store, set_tail,
      inc_size, deleter, release, set_prev, List.getElem?_append_left hlt, hn,
      List.getElem?_set, hlt1, hne, hne1]
    rw [if_neg hrb, if_neg hnb, List.getElem?_append_left hbl]

/-- C20: on a well-formed list that is not full, `InsertByIterator` called with
`begin()` or with the end sentinel returns normally after two allocations (the
memory grows by two cells) while `Length()` grows by one: the list gains one node,
and the node allocated first at the top of `InsertByIterator` is not among the nodes
of the list, is still live and still has null links. -/
theorem InsertByIterator_end_leaks (s : State T) (ns : List (Nat × T)) (h : IsList s ns) (v : T)
    (it : forward_iterator) (hit : it = s.first ∨ it = none) (hb : ns.length < SIZE_MAX) :
    ∃ s1 ns1, InsertByIterator it v s = .ok () s1 ∧ IsList s1 ns1 ∧
      s1.cells.length = s.cells.length + 2 ∧
      Length s = .ok ns.length s ∧ Length s1 = .ok (ns.length + 1) s1 ∧
      s.cells.length ∉ ns1.map Prod.fst ∧
      s1.cells[s.cells.length]? = some (some ⟨v, none, none⟩) := by
  have hg := IsList_grow h [some (Element.mk v none none)]
  have hfresh : s.cells.length ∉ ns.map Prod.fst := fun hm => Nat.lt_irrefl _ (Seg_lt h.1 hm)
  have hcell : (s.cells ++ [some (Element.mk v none none)])[s.cells.length]?
      = some (some ⟨v, none, none⟩) := List.getElem?_concat_length _ _
  have hlen0 : Length s = .ok ns.length s := by rw [Length_eq, h.2.2.2.2.1]
  have front : ∃ s1 ns1, PushFront v (State.mk (s.cells ++ [some (Element.mk v none none)])
        s.size s.first s.tail) = .ok () s1 ∧ IsList s1 ns1 ∧
      s1.cells.length = s.cells.length + 2 ∧
      Length s = .ok ns.length s ∧ Length s1 = .ok (ns.length + 1) s1 ∧
      s.cells.length ∉ ns1.map Prod.fst ∧
      s1.cells[s.cells.length]? = some (some ⟨v, none, none⟩) := by
    obtain ⟨s1, h1, hl1, hlen⟩ := PushFront_spec _ ns v hg hb
    obtain ⟨s2, h2, hfr⟩ := PushFront_frame _ ns v hg hb s.cells.length hfresh (by simp)
    rw [h1] at h2
    injection h2 with _ h3
    subst h3
    refine ⟨s1, _, h1, hl1, by simpa using hlen, hlen0, ?_, ?_, by rw [hfr]; exact hcell⟩
    · rw [Length_eq, hl1.2.2.2.2.1]; rfl
    · simp only [List.map_cons, List.mem_cons, not_or]
      exact ⟨by simp, hfresh⟩
  have hbegin : ∃ s1 ns1, InsertByIterator s.first v s = .ok () s1 ∧ IsList s1 ns1 ∧
      s1.cells.length = s.cells.length + 2 ∧
      Length s = .ok ns.length s ∧ Length s1 = .ok (ns.length + 1) s1 ∧
      s.cells.length ∉ ns1.map Prod.fst ∧
      s1.cells[s.cells.length]? = some (some ⟨v, none, none⟩) := by
    rw [InsertByIterator_begin]
    exact front
  rcases hit with rfl | rfl
  · exact hbegin
  · by_cases hf : s.first = none
    · rw [hf] at hbegin; exact hbegin
    · rw [InsertByIterator_end s v hf]
      obtain ⟨s1, h1, hl1, hlen⟩ := PushBack_spec _ ns v hg hb
      obtain ⟨s2, h2, hfr⟩ := PushBack_frame _ ns v hg hb s.cells.length hfresh (by simp)
      rw [h1] at h2
      injection h2 with _ h3
      subst h3
      refine ⟨s1, _, h1, hl1, by simpa using hlen, hlen0, ?_, ?_, by rw [hfr]; exact hcell⟩
      · rw [Length_eq, hl1.2.2.2.2.1]; simp
      · simp only [List.map_append, List.map_cons, List.map_nil, List.mem_append,
          List.mem_singleton, not_or]
        exact ⟨hfresh, by simp⟩

/-- Witness of C20: `InsertByIterator(end(), 9)` on the list `1, 2, 3`. -/
theorem InsertByIterator_end_leaks_witness :
    IsList list123 [(0, 1), (1, 2), (2, 3)] ∧ ((none : forward_iterator) = list123.first ∨
      (none : forward_iterator) = none) ∧ [(0, 1), (1, 2), (2, 3)].length < SIZE_MAX ∧
    ∃ s1 ns1, InsertByIterator none 9 list123 = .ok () s1 ∧ IsList s1 ns1 ∧
      s1.cells.length = list123.cells.length + 2 ∧
      Length list123 = .ok [(0, 1), (1, 2), (2, 3)].length list123 ∧
      Length s1 = .ok ([(0, 1), (1, 2), (2, 3)].length + 1) s1 ∧
      list123.cells.length ∉ ns1.map Prod.fst ∧
      s1.cells[list123.cells.length]? = some (some ⟨9, none, none⟩) :=
  ⟨by decide, Or.inr rfl, by decide,
    InsertByIterator_end_leaks list123 [(0, 1), (1, 2), (2, 3)] (by decide) 9 none (Or.inr rfl)
      (by decide)⟩

end LinkedList
